import Mathlib

/-!
# vip: merge / split synchronisation engine (src/vip.c)

A shallow embedding of `vip.c`.

* Bytes are `Fin 256` (`unsigned char`); a C string is a list of bytes read up
  to its first NUL (`cstr`).
* The file system is a map from paths to files, each file carrying its bytes
  and its modification time; a file can be opened for reading when it exists.
  Every operation that writes takes its time stamp from a clock stream owned by
  the file system, so no assumption is made on how modification times evolve.
* `exit(1)` is modelled by returning an `Exit` value together with the state
  of the world at the moment of the exit (stdio streams are flushed by `exit`).
* The counters `fno`, `nfiles` and the indices printed by `merge` are integers
  that stay within `int` in the runs covered (at most 2^31 - 1 tracked files);
  the numbers that `split` reads from a marker are converted as `atoi` does,
  to the low 32 bits of the value that `strtol` returns.
* A name read from a marker that does not fit the two 4096-byte buffers of
  `split`, and a store outside the time stamp tables, are reported as
  `undefinedBehaviour`.
* `datafromfile` leaves a descriptor open when the file is empty; the
  embedding counts these descriptors (`SplitState.leaked`) and sets no limit
  on their number.  `read` and `fwrite` are assumed to transfer all the bytes
  they are asked for.
-/

namespace Vip

/-! ## Bytes and C strings -/

/-- One `unsigned char`. -/
abbrev Byte := Fin 256

/-- Bytes of an ASCII string literal. -/
def ascii (s : String) : List Byte := s.toList.map (fun c => Fin.ofNat c.toNat)

/-- A file or path name: the bytes of a C string, which holds no NUL. -/
abbrev Path := List Byte

/-- The C string stored at the start of a buffer: the bytes before the first NUL. -/
def cstr : List Byte → List Byte
  | [] => []
  | c :: s => if c = 0 then [] else c :: cstr s

/-- `#define MAXTEXTLINE (8*4096)`. -/
def MAXTEXTLINE : Nat := 8 * 4096

/-- `#define TEMPBUFSIZE (1024*1024)`. -/
def TEMPBUFSIZE : Nat := 1024 * 1024

/-- The value of `char c = *buf++` as an integer: with a signed `char` the bytes
128..255 become negative, with an unsigned `char` they keep their value. -/
def toChar (signedChar : Bool) (b : Byte) : Int :=
  if signedChar ∧ 128 ≤ b.val then (b.val : Int) - 256 else (b.val : Int)

/-- The test of `binarydata` on one character (line 71): true when the
character is NOT tab, newline, carriage return or printable ASCII. -/
def binarychar (c : Int) : Bool :=
  !((c == 9) || (c == 10) || (c == 13) || (decide (c ≥ 32) && decide (c ≤ 126)))

/-- `binarydata(buf, n)` (lines 67-75): scans the first `n` bytes of `buf`,
returning 1 at the first byte that is not text, 0 if there is none.  `buf` is
expected to hold at least `n` bytes. -/
def binarydata (signedChar : Bool) : List Byte → Nat → Int
  | _, 0 => 0
  | [], _ + 1 => 0
  | b :: buf, n + 1 =>
    if binarychar (toChar signedChar b) then 1 else binarydata signedChar buf n

/-! ## String helpers -/

/-- `strstr(s, pat)`: offset of the first occurrence of `pat` in `s`, if any. -/
def strstr : List Byte → List Byte → Option Nat
  | [], pat => if pat = [] then some 0 else none
  | c :: s, pat =>
    if pat.isPrefixOf (c :: s) then some 0 else (strstr s pat).map (· + 1)

/-- `strstartswith(str, pattern)` (lines 145-153): `strstr` finds the pattern at
the very start of the string. -/
def strstartswith (str pattern : List Byte) : Bool :=
  strstr str pattern == some 0

/-- `lindex(s, c)` (lines 168-176): offset of the first occurrence of `c`. -/
def lindex : List Byte → Byte → Option Nat
  | [], _ => none
  | x :: s, c => if x = c then some 0 else (lindex s c).map (· + 1)

/-- `isspace` of the C locale. -/
def isspace (c : Byte) : Bool := c = 32 || (decide (9 ≤ c.val) && decide (c.val ≤ 13))

/-- `isdigit`. -/
def isdigit (c : Byte) : Bool := decide (48 ≤ c.val) && decide (c.val ≤ 57)

/-- The digit loop of `atoi`: accumulates decimal digits, stops at the first
character that is not a digit. -/
def atoiDigits : List Byte → Int → Int
  | [], acc => acc
  | c :: s, acc => if isdigit c then atoiDigits s (acc * 10 + ((c.val : Int) - 48)) else acc

/-- The number that `strtol(s, NULL, 10)` reads: it skips white space, reads an
optional sign, then decimal digits. -/
def decimalValue (s : List Byte) : Int :=
  match s.dropWhile isspace with
  | [] => 0
  | c :: t =>
    if c = 45 then - atoiDigits t 0
    else if c = 43 then atoiDigits t 0
    else atoiDigits (c :: t) 0

/-- `strtol(s, NULL, 10)` with a 64-bit `long`: a number outside the range of
`long` is returned as `LONG_MIN` or `LONG_MAX`. -/
def strtol (s : List Byte) : Int := max (-(2 ^ 63)) (min (decimalValue s) (2 ^ 63 - 1))

/-- Conversion of a `long` to a 32-bit `int`: the low 32 bits, in two's
complement. -/
def longToInt (z : Int) : Int := (z + 2 ^ 31) % 2 ^ 32 - 2 ^ 31

/-- `atoi(s)`, which the C library computes as `(int) strtol(s, NULL, 10)`: the
result stored in the `int` variables of lines 334-335. -/
def atoi (s : List Byte) : Int := longToInt (strtol s)

/-- The ASCII digit of `d % 10`. -/
def digitChar (d : Nat) : Byte := Fin.ofNat (48 + d % 10)

/-- Decimal digits of `n`, least significant first (`fuel` bounds the number of
digits produced). -/
def revDigits : Nat → Nat → List Byte
  | 0, _ => []
  | fuel + 1, n => digitChar n :: (if n < 10 then [] else revDigits fuel (n / 10))

/-- What `printf("%d", z)` prints. -/
def fmtd (z : Int) : List Byte :=
  if z < 0 then 45 :: (revDigits (z.natAbs + 1) z.natAbs).reverse
  else (revDigits (z.natAbs + 1) z.natAbs).reverse

/-! ## Marker lines -/

/-- The run of asterisks and the tag that close every marker line. -/
def markerTail : List Byte :=
  ascii "] ********************************************************** VIP\n"

/-- The line written by line 83:
`"// [%s] Start Fileno: [%d:%d] ****...**** VIP\n"`. -/
def startMarker (filename : Path) (fileno nfiles : Int) : List Byte :=
  ascii "// [" ++ filename ++ ascii "] Start Fileno: [" ++ fmtd fileno ++ ascii ":" ++
    fmtd nfiles ++ markerTail

/-- The line written by line 103:
`"// [%s] End Fileno: [%d:%d] ****...**** VIP\n"`. -/
def endMarker (filename : Path) (fileno nfiles : Int) : List Byte :=
  ascii "// [" ++ filename ++ ascii "] End Fileno: [" ++ fmtd fileno ++ ascii ":" ++
    fmtd nfiles ++ markerTail

/-- The Start-marker test of line 311, on the buffer filled by `fgets`. -/
def isStart (buf : List Byte) : Bool :=
  strstartswith (cstr buf) (ascii "//") && (strstr (cstr buf) (ascii "Start")).isSome &&
    (strstr (cstr buf) (ascii "Fileno:")).isSome &&
    (strstr (cstr buf) (ascii "********* VIP")).isSome

/-- The End-marker test of line 358. -/
def isEnd (buf : List Byte) : Bool :=
  strstartswith (cstr buf) (ascii "//") && (strstr (cstr buf) (ascii "End")).isSome &&
    (strstr (cstr buf) (ascii "Fileno:")).isSome &&
    (strstr (cstr buf) (ascii "********* VIP")).isSome

/-- Field extraction of lines 312-335 on a buffer: the file name between the
first `[` and the next `]`, then the numbers on both sides of the first `:`
between the following `[` and `]`.  `Except.error n` is `fatalexitsplit(n)`. -/
def parseStart (buf : List Byte) : Except Nat (Path × Int × Int) :=
  let s := cstr buf
  match lindex s 91 with
  | none => .error 1
  | some a =>
    let fnamestart := s.drop (a + 1)
    match lindex fnamestart 93 with
    | none => .error 2
    | some b =>
      let filename := fnamestart.take b
      let afterName := fnamestart.drop (b + 1)
      match lindex afterName 91 with
      | none => .error 3
      | some c =>
        let fnostart := afterName.drop (c + 1)
        match lindex fnostart 93 with
        | none => .error 4
        | some d =>
          let fileno := fnostart.take d
          match lindex fileno 58 with
          | none => .error 5
          | some e => .ok (filename, atoi (fileno.take e), atoi (fileno.drop (e + 1)))

/-- The buffers returned by successive calls `fgets(buf, size, inf)` until it
returns NULL: each call stores at most `size - 1` bytes and stops after a
newline.  `cur` holds the bytes already stored by the call in progress. -/
def fgetsLines (size : Nat) : List Byte → List Byte → List (List Byte)
  | cur, [] => if cur = [] then [] else [cur]
  | cur, c :: s =>
    if c = 10 ∨ cur.length + 2 = size then (cur ++ [c]) :: fgetsLines size [] s
    else fgetsLines size (cur ++ [c]) s

/-! ## The file system -/

/-- A modification time: `tv_sec` and `tv_nsec`. -/
structure Time where
  sec : Int
  nsec : Int
  deriving DecidableEq, Repr

/-- A regular file: its bytes and its modification time. -/
structure File where
  data : List Byte
  mtime : Time
  deriving DecidableEq

/-- The file system.  `wdeny p` tells that `fopen(p, "w")` fails (missing
directory, no permission).  `clock` is the stream of time stamps that writes
receive, `tick` the position in that stream. -/
structure FS where
  files : Path → Option File
  wdeny : Path → Bool
  clock : Nat → Time
  tick : Nat

namespace FS

/-- `open(p, O_RDONLY)` / `fopen(p, "r")`: the file, when it exists. -/
def openR (fs : FS) (p : Path) : Option File := fs.files p

/-- Binds `p` to `f` (or to nothing). -/
def setFile (fs : FS) (p : Path) (f : Option File) : FS :=
  { fs with files := fun q => if q = p then f else fs.files q }

/-- `fopen(p, "w")`: creates the file or truncates it to length zero; `none`
when the open fails. -/
def fopenW (fs : FS) (p : Path) : Option FS :=
  if fs.wdeny p then none
  else some { fs.setFile p (some ⟨[], fs.clock fs.tick⟩) with tick := fs.tick + 1 }

/-- Flushing a stream opened by `fopenW` on `p` that received the bytes `data`
(at `fclose`, or at `exit`).  Nothing is written when the stream is empty. -/
def flush (fs : FS) (p : Path) (data : List Byte) : FS :=
  match fs.files p with
  | some f =>
    if data = [] then fs
    else { fs.setFile p (some { f with data := f.data ++ data, mtime := fs.clock fs.tick }) with
           tick := fs.tick + 1 }
  | none => fs

/-- `unlink(p)`. -/
def unlink (fs : FS) (p : Path) : FS := fs.setFile p none

/-- `rename(a, b)`: fails, changing nothing, when `a` does not exist. -/
def rename (fs : FS) (a b : Path) : FS :=
  match fs.files a with
  | some f => (fs.setFile a none).setFile b (some f)
  | none => fs

end FS

/-- How a run ends.  `ok` is normal completion; every other value is a
termination of the process, with the message it prints. -/
inductive Exit where
  | ok
  | errorexit (msg : String) (filename : Option Path)
  | fatalexitsplit (n : Nat)
  | indexError (thisfileno fno : Int)
  | totalError (totfiles nfiles : Int)
  | binaryFile (filename : Path)
  | undefinedBehaviour
  deriving DecidableEq

/-- `filetime(filename, sec, nsec)` (lines 108-126).  When `open` fails the
code stores 0 in `*sec` and `*nsec` and prints a warning, but does not return:
`fstat(-1, &buf)` fails and leaves `buf` as it was, uninitialised (`stack` stands
for what the stack held there), and lines 119-125 then overwrite `*sec` and
`*nsec` with the fields of `buf`. -/
def filetime (fs : FS) (filename : Path) (stack : Time) : Time :=
  let buf : Time := match fs.openR filename with
    | some file => file.mtime
    | none => stack
  ⟨buf.sec, buf.nsec⟩

/-! ## Merge -/

/-- The copy loop of `writefile` (lines 85-100): reads chunks of `TEMPBUFSIZE`
bytes, stops on an empty read, exits on a binary chunk, appends the chunk to
the output stream otherwise.  Returns whether a binary chunk was met and the
output stream.  Every round consumes at least one byte, so `fuel` greater than
the number of bytes left is never exhausted. -/
def copyLoop (signedChar : Bool) : Nat → List Byte → List Byte → Bool × List Byte
  | 0, _, out => (false, out)
  | fuel + 1, inp, out =>
    let chunk := inp.take TEMPBUFSIZE
    let nr := chunk.length
    if nr ≤ 0 then (false, out)
    else if binarydata signedChar chunk nr ≠ 0 then (true, out)
    else copyLoop signedChar fuel (inp.drop TEMPBUFSIZE) (out ++ chunk)

/-- `writefile(outf, filename, fileno, nfiles)` (lines 77-106); `out` is what
the stream `outf` has received so far. -/
def writefile (signedChar : Bool) (fs : FS) (out : List Byte) (filename : Path)
    (fileno nfiles : Int) : Exit × List Byte :=
  match fs.openR filename with
  | none => (.errorexit "writefile: can't open input file" (some filename), out)
  | some inf =>
    let out1 := out ++ startMarker filename fileno nfiles
    match copyLoop signedChar (inf.data.length + 1) inf.data out1 with
    | (true, out2) => (.binaryFile filename, out2)
    | (false, out2) => (.ok, out2 ++ endMarker filename fileno nfiles)

/-- The loop of `merge` (lines 133-136) from index `i` on: the exit, the output
stream and the time stamps stored so far. -/
def mergeLoop (signedChar : Bool) (fs : FS) (nfiles : Int) (stack : Time) :
    List Path → Int → List Byte → List Time → Exit × List Byte × List Time
  | [], _, out, times => (.ok, out, times)
  | f :: rest, i, out, times =>
    match writefile signedChar fs out f (i + 1) nfiles with
    | (.ok, out1) =>
      mergeLoop signedChar fs nfiles stack rest (i + 1) out1 (times ++ [filetime fs f stack])
    | (e, out1) => (e, out1, times)

/-- `merge(mergefilename, filenames, filesec, filensec, nfiles)` (lines
128-138), with `nfiles` the length of `filenames`.  Returns the exit, the file
system when the process exits or `merge` returns, and the time stamps stored
in the table.  The stream `outf` reaches the file when it is closed or when the
process exits; the tracked files are read from the file system as it is once
the output has been opened. -/
def merge (signedChar : Bool) (mergefilename : Path) (filenames : List Path) (stack : Time)
    (fs : FS) : Exit × FS × List Time :=
  match fs.fopenW mergefilename with
  | none => (.errorexit "can't open output file" (some mergefilename), fs, [])
  | some fs1 =>
    match mergeLoop signedChar fs1 filenames.length stack filenames 0 [] [] with
    | (e, out, times) => (e, fs1.flush mergefilename out, times)

/-! ## Split -/

/-- `datafromfile(filename, &len)` (lines 178-204).  The first component is
the data: `none` is `len = -1`; `some []` is `len = 0` with a NULL pointer.  The
second component is the number of descriptors that the call leaves open: when
the size of the file is not positive, line 193 returns without `close(f)`.
The embedding counts these descriptors; the limit that the system sets on
their number is not part of it. -/
def datafromfile (fs : FS) (filename : Path) : Option (List Byte) × Nat :=
  match fs.openR filename with
  | none => (none, 0)
  | some f => if f.data.length ≤ 0 then (some [], 1) else (some f.data, 0)

/-- `datatofile(filename, buf, len)` (lines 206-215).  The result of `fopen` is
not checked: `none` is the call of `fwrite` on a NULL stream. -/
def datatofile (fs : FS) (filename : Path) (buf : List Byte) : Option FS :=
  (fs.fopenW filename).map (fun fs1 => fs1.flush filename buf)

/-- The comparison loop shared by `filesame` (lines 250-256) and `datasame`
(lines 266-269): `len` pairs of bytes are compared. -/
def sameBytes : List Byte → List Byte → Nat → Int
  | _, _, 0 => 1
  | c1 :: d1, c2 :: d2, len + 1 => if c1 ≠ c2 then 0 else sameBytes d1 d2 len
  | _, _, _ + 1 => 0

/-- `datasame(data1, data2, len1, len2)` (lines 262-271). -/
def datasame (data1 data2 : List Byte) (len1 len2 : Nat) : Int :=
  if len1 ≠ len2 then 0 else sameBytes data1 data2 len1

/-- `filesame(filename1, filename2)` (lines 231-260): the result, and the
number of descriptors that its two calls of `datafromfile` leave open. -/
def filesame (fs : FS) (filename1 filename2 : Path) : Except Exit Int × Nat :=
  match datafromfile fs filename1 with
  | (none, k1) => (.error (.errorexit "datafromfile failed 1" (some filename1)), k1)
  | (some data1, k1) =>
    match datafromfile fs filename2 with
    | (none, k2) => (.error (.errorexit "datafromfile failed 2" (some filename2)), k1 + k2)
    | (some data2, k2) =>
      if data1.length = 0 ∧ data2.length = 0 then (.ok 1, k1 + k2)
      else if data1.length ≠ data2.length then (.ok 0, k1 + k2)
      else (.ok (sameBytes data1 data2 data1.length), k1 + k2)

/-- The snapshot loop of `split` (lines 278-297).  `reads j` is what the `j`-th
call of `datafromfile` on the merged document returns; `left` is `20 - nrep`,
so that `left = 0` is the test `nrep == 20` of line 295. -/
def snapshotLoop (mergefilename : Path) (reads : Nat → Option (List Byte)) :
    Nat → Except Exit (List Byte)
  | 0 => .error (.errorexit "split: Error geting consitent data" none)
  | left + 1 =>
    match reads (2 * (19 - left)) with
    | none => .error (.errorexit "split: datafromfile failed 1" (some mergefilename))
    | some data1 =>
      match reads (2 * (19 - left) + 1) with
      | none => .error (.errorexit "split: datafromfile failed 2" (some mergefilename))
      | some data2 =>
        if datasame data1 data2 data1.length data2.length ≠ 0 then .ok data1
        else snapshotLoop mergefilename reads left

/-- The number of calls of `datafromfile` that the snapshot loop makes before
it leaves (same arguments as `snapshotLoop`). -/
def snapshotCalls (reads : Nat → Option (List Byte)) : Nat → Nat
  | 0 => 0
  | left + 1 =>
    match reads (2 * (19 - left)) with
    | none => 1
    | some data1 =>
      match reads (2 * (19 - left) + 1) with
      | none => 2
      | some data2 =>
        if datasame data1 data2 data1.length data2.length ≠ 0 then 2
        else 2 + snapshotCalls reads left

/-- The variables of `split` that change while it runs: the file system, the
table `filesec`/`filensec`, and the counter `fno`.  `replaced` is a record,
kept for the proofs only, of the real writes: the name of every file that
line 365 renamed into place, with the table index that line 367 refreshed.
`leaked` is the number of descriptors that the calls of `datafromfile` made by
this run of `split` have left open. -/
structure SplitState where
  fs : FS
  times : List Time
  fno : Int
  replaced : List (Path × Int)
  leaked : Nat

/-- Where the scan of `split` stands: in the outer loop looking for a Start
marker, or in the inner loop of the record of `filename`, `body` being what
`fputs` has sent to the temporary output so far. -/
inductive Mode where
  | searching
  | inBody (filename : Path) (body : List Byte)
  deriving DecidableEq

/-- Lines 362-371, for the record of `filename` whose temporary output received
`body`: close the temporary file, compare it with the real file, replace the
real file and refresh its table entry when they differ, remove the temporary
file when they do not, then increment `fno`.  A store outside the table is
reported as `undefinedBehaviour`. -/
def commitRecord (stack : Time) (st : SplitState) (filename : Path) (body : List Byte) :
    Exit × SplitState :=
  let realfilename := filename
  let changedfilename := filename ++ ascii "T"
  let fs1 := st.fs.flush changedfilename body
  match filesame fs1 realfilename changedfilename with
  | (.error e, k) => (e, { st with fs := fs1, leaked := st.leaked + k })
  | (.ok same, k) =>
    if same = 0 then
      let fs2 := fs1.unlink realfilename
      let fs3 := fs2.rename changedfilename realfilename
      let findex := st.fno - 1
      if 0 ≤ findex ∧ findex < st.times.length then
        (.ok, { fs := fs3,
                times := st.times.set findex.toNat (filetime fs3 realfilename stack),
                fno := st.fno + 1,
                replaced := st.replaced ++ [(realfilename, findex)],
                leaked := st.leaked + k })
      else (.undefinedBehaviour,
            { st with fs := fs3, replaced := st.replaced ++ [(realfilename, findex)],
                      leaked := st.leaked + k })
    else (.ok, { st with fs := fs1.unlink changedfilename, fno := st.fno + 1,
                         leaked := st.leaked + k })

/-- The number of descriptors that the commit of the record of `filename`
leaves open: those of the two calls of `datafromfile` made by `filesame`. -/
def commitLeak (st : SplitState) (filename : Path) (body : List Byte) : Nat :=
  (filesame (st.fs.flush (filename ++ ascii "T") body) filename (filename ++ ascii "T")).2

/-- The two nested `fgets` loops of `split` (lines 310-373) as one scan over the
buffers that `fgets` returns.  Lines 352-353 copy the name, and the name
followed by `T`, into buffers of 4096 bytes with `sprintf`: a name that does
not fit with its terminating NUL is reported as `undefinedBehaviour`. -/
def splitLoop (stack : Time) (nfiles : Int) :
    SplitState → Mode → List (List Byte) → Exit × SplitState
  | st, .searching, [] => (.ok, st)
  | st, .searching, buf :: rest =>
    if isStart buf then
      match parseStart buf with
      | .error n => (.fatalexitsplit n, st)
      | .ok (filename, thisfileno, totfiles) =>
        if thisfileno ≠ st.fno then (.indexError thisfileno st.fno, st)
        else if totfiles ≠ nfiles then (.totalError totfiles nfiles, st)
        else if 4096 < filename.length + 2 then (.undefinedBehaviour, st)
        else
          match st.fs.fopenW (filename ++ ascii "T") with
          | none =>
            (.errorexit "split: can't open output file" (some (filename ++ ascii "T")), st)
          | some fs1 => splitLoop stack nfiles { st with fs := fs1 } (.inBody filename []) rest
    else splitLoop stack nfiles st .searching rest
  | st, .inBody filename body, [] => commitRecord stack st filename body
  | st, .inBody filename body, buf :: rest =>
    if isEnd buf then
      match commitRecord stack st filename body with
      | (.ok, st1) => splitLoop stack nfiles st1 .searching rest
      | r => r
    else splitLoop stack nfiles st (.inBody filename (body ++ cstr buf)) rest

/-- `split(mergefilename, filesec, filensec, nfiles)` (lines 273-376) on a file
system that no other process changes meanwhile; `mergetempname` is the global
of that name.  The stream `inf` holds the merged document as it is when opened
at line 306: the embedding covers the runs in which no temporary output
`name ++ "T"` is the merged document itself (in `main` the merged document is
`/tmp/t.p`).  Every call of `datafromfile` in the snapshot loop reads the same
file, so each leaves the same number of descriptors open. -/
def split (stack : Time) (mergefilename mergetempname : Path) (nfiles : Int)
    (times : List Time) (fs : FS) : Exit × SplitState :=
  let reads : Nat → Option (List Byte) := fun _ => (datafromfile fs mergefilename).1
  let leaked := snapshotCalls reads 20 * (datafromfile fs mergefilename).2
  match snapshotLoop mergefilename reads 20 with
  | .error e => (e, ⟨fs, times, 1, [], leaked⟩)
  | .ok data1 =>
    let afterSnapshot : Option FS :=
      if data1.length > 0 then datatofile fs mergetempname data1 else some fs
    match afterSnapshot with
    | none => (.undefinedBehaviour, ⟨fs, times, 1, [], leaked⟩)
    | some fs1 =>
      match fs1.openR mergefilename with
      | none =>
        (.errorexit "split: can't open input file" (some mergefilename),
          ⟨fs1, times, 1, [], leaked⟩)
      | some inf =>
        match splitLoop stack nfiles ⟨fs1, times, 1, [], leaked⟩ .searching
            (fgetsLines MAXTEXTLINE [] inf.data) with
        | (.ok, st) => (.ok, { st with fs := st.fs.unlink mergetempname })
        | r => r

/-- The comparison of lines 437 and 445: the two times differ in the seconds or
in the nanoseconds. -/
def timeDiffers (a b : Time) : Bool := a.sec != b.sec || a.nsec != b.nsec

/-- The count of lines 441-447: the number of tracked files whose time, as
`filetime` reports it, differs from their entry in the table.  `argv` holds the
tracked paths (`argv[1]` onwards) and the table holds one entry per tracked
file, in the same order.  `junk k` stands for what the stack holds where
`struct stat buf` lives during the call of `filetime` for the `k`-th of these
files. -/
def countChanged (fs : FS) (junk : Nat → Time) : List Path → List Time → Nat
  | p :: argv, r :: times =>
    (if timeDiffers (filetime fs p (junk 0)) r then 1 else 0) +
      countChanged fs (fun k => junk (k + 1)) argv times
  | _, _ => 0

/-- The variables of the watching flow that an iteration may change: the file
system, the table `filesec`/`filensec`, and the last known time of the merged
document (`mergesec`, `mergensec`). -/
structure WatchState where
  fs : FS
  times : List Time
  mergetime : Time

/-- Lines 441-451 of one iteration of the watching loop: merge is run again when
the count of changed files is not zero; it overwrites the table from its first
entry on, and the last known time of the merged document is then refreshed.
The last component tells whether merge was run. -/
def watchMerge (signedChar : Bool) (stack : Time) (garbage : Nat → Time) (mergefilename : Path)
    (argv : List Path) (w : WatchState) : Exit × WatchState × Bool :=
  if countChanged w.fs (fun k => garbage (3 + k)) argv w.times ≠ 0 then
    match merge signedChar mergefilename argv stack w.fs with
    | (.ok, fs1, times1) =>
      (.ok, ⟨fs1, times1 ++ w.times.drop times1.length,
        filetime fs1 mergefilename (garbage 2)⟩, true)
    | (e, fs1, times1) => (e, ⟨fs1, times1 ++ w.times.drop times1.length, w.mergetime⟩, true)
  else (.ok, w, false)

/-- A text byte, in the words of the specification: tab, newline, carriage
return, or printable ASCII 32..126. -/
def isTextByte (b : Byte) : Prop :=
  b.val = 9 ∨ b.val = 10 ∨ b.val = 13 ∨ (32 ≤ b.val ∧ b.val ≤ 126)

instance (b : Byte) : Decidable (isTextByte b) := by
  unfold isTextByte
  infer_instance

/-- The record of one file in the merged document, in the words of the
specification: Start marker line, the bytes of the file, End marker line. -/
def recordOf (p : Path) (i n : Int) (c : List Byte) : List Byte :=
  startMarker p i n ++ c ++ endMarker p i n

/-- The merged document of the specification for the files `(path, content)`,
the first of which has index `i`, with `n` the total written in every marker. -/
def mergedDocument (n : Int) : Int → List (Path × List Byte) → List Byte
  | _, [] => []
  | i, (p, c) :: rest => recordOf p i n c ++ mergedDocument n (i + 1) rest

/-- The file system holds the text file `pc.1` with the bytes `pc.2`. -/
def holdsText (fs : FS) (pc : Path × List Byte) : Prop :=
  ∃ f, fs.openR pc.1 = some f ∧ f.data = pc.2 ∧ ∀ b ∈ pc.2, isTextByte b

/-- The records of a merged document as the scan of `split` delimits them,
leaving the index and total checks aside: the name taken from each Start
marker met in the outer loop, with the bytes sent to its temporary output. -/
def docRecords : Mode → List (List Byte) → List (Path × List Byte)
  | .searching, [] => []
  | .searching, buf :: rest =>
    if isStart buf then
      match parseStart buf with
      | .error _ => []
      | .ok (filename, _, _) => docRecords (.inBody filename []) rest
    else docRecords .searching rest
  | .inBody filename body, [] => [(filename, body)]
  | .inBody filename body, buf :: rest =>
    if isEnd buf then (filename, body) :: docRecords .searching rest
    else docRecords (.inBody filename (body ++ cstr buf)) rest

/-- The index and the total parsed from every Start marker that the scan of
`split` meets in its outer loop, in order. -/
def docHeaders : Mode → List (List Byte) → List (Int × Int)
  | .searching, [] => []
  | .searching, buf :: rest =>
    if isStart buf then
      match parseStart buf with
      | .error _ => []
      | .ok (filename, thisfileno, totfiles) =>
        (thisfileno, totfiles) :: docHeaders (.inBody filename []) rest
    else docHeaders .searching rest
  | .inBody _ _, [] => []
  | .inBody filename body, buf :: rest =>
    if isEnd buf then docHeaders .searching rest
    else docHeaders (.inBody filename (body ++ cstr buf)) rest

/-- The headers `(i, n), (i + 1, n), ...` of `k` records in file-index order. -/
def headersFrom (n : Int) : Int → Nat → List (Int × Int)
  | _, 0 => []
  | i, k + 1 => (i, n) :: headersFrom n (i + 1) k

/-- Every tracked file exists and its entry in the table is its modification
time: `paths` and `times` are in step. -/
def inSync (fs : FS) : List Path → List Time → Prop
  | [], [] => True
  | p :: paths, t :: times => (∃ f, fs.files p = some f ∧ t = f.mtime) ∧ inSync fs paths times
  | _, _ => False

/-- A content that is empty or ends with a newline. -/
def endsWithNewline (c : List Byte) : Prop := c = [] ∨ c.getLast? = some 10

instance (c : List Byte) : Decidable (endsWithNewline c) := by
  unfold endsWithNewline
  infer_instance

/-- The conditions on one tracked file `(path, content)` under which its record
is read back by split as it was written by merge: the path is a C string
without `]` and newline, short enough for the path followed by `T` to fit the
4096-byte name buffers of split; the content holds no NUL, is empty or ends
with a newline, and none of the buffers that `fgets` cuts it into passes the
End-marker test. -/
def roundTripSafe (pc : Path × List Byte) : Prop :=
  (0 : Byte) ∉ pc.1 ∧ (93 : Byte) ∉ pc.1 ∧ (10 : Byte) ∉ pc.1 ∧ pc.1.length + 2 ≤ 4096 ∧
  (0 : Byte) ∉ pc.2 ∧ endsWithNewline pc.2 ∧
  ∀ buf ∈ fgetsLines MAXTEXTLINE [] pc.2, isEnd buf = false

/-- The temporary output that the scan holds open in mode `m`, if any, is `q`. -/
def opened (m : Mode) (q : Path) : Prop :=
  match m with
  | .searching => False
  | .inBody n _ => q = n ++ ascii "T"

/-- Every listed record whose file exists is on disk with the listed body. -/
def recordsOnDisk (fs : FS) (recs : List (Path × List Byte)) : Prop :=
  ∀ pc ∈ recs, ∀ f, fs.files pc.1 = some f → f.data = pc.2

/-- The number of records still to be closed by the scan, the one in progress
apart. -/
def recordsAhead (m : Mode) (lines : List (List Byte)) : Nat :=
  match m with
  | .searching => (docRecords m lines).length
  | .inBody _ _ => (docRecords m lines).length - 1

/-- The table and the tracked files are in step, by index. -/
def syncAt (fs : FS) (paths : List Path) (times : List Time) : Prop :=
  times.length = paths.length ∧
  ∀ (k : Nat) (p : Path), paths[k]? = some p → ∃ f, fs.files p = some f ∧ times[k]? = some f.mtime

/-! ## Concrete inputs -/

/-- The clock of the examples: the `k`-th write happens at second `100 + k`. -/
def clock0 (k : Nat) : Time := ⟨100 + k, 0⟩

/-- What the stack holds where `filetime` keeps its `struct stat`, in the examples. -/
def stack0 : Time := ⟨7, 7⟩

/-- The file system of the examples: the listed files, all last modified at
second 5; every path may be opened for writing. -/
def fsOf (files : List (Path × List Byte)) : FS :=
  { files := fun p => (files.lookup p).map (fun d => ⟨d, ⟨5, 0⟩⟩),
    wdeny := fun _ => false,
    clock := clock0,
    tick := 0 }

/-- The path of the merged document in `main`. -/
def mergePath : Path := ascii "/tmp/t.p"

/-- A path for the snapshot copy, as `mktemp` could return it. -/
def tempPath : Path := ascii "/tmp/vip.pool.a1b2c3"

/-- One tracked file `a` holding the line "x" with its newline. -/
def fsLine : FS := fsOf [(ascii "a", ascii "x\n")]

/-- One tracked file `a` holding "x" without a final newline. -/
def fsNoNewline : FS := fsOf [(ascii "a", ascii "x")]

/-- One tracked file `a` holding the single byte 0x00. -/
def fsNul : FS := fsOf [(ascii "a", [0])]

/-- A merged document with two records that both name the file `a`. -/
def docTwice : List Byte :=
  recordOf (ascii "a") 1 2 (ascii "x\n") ++ recordOf (ascii "a") 2 2 (ascii "y\n")

/-- The file `a` and the merged document `docTwice`. -/
def fsTwice : FS := fsOf [(ascii "a", ascii "x\n"), (mergePath, docTwice)]

/-- The first split of the example `fsTwice`, two files being tracked. -/
def splitTwiceFirst : Exit × SplitState :=
  split stack0 mergePath tempPath 2 [⟨5, 0⟩, ⟨5, 0⟩] fsTwice

/-- A merged document for the single file `a` in which the body was edited to "y\n". -/
def docEdit : List Byte := recordOf (ascii "a") 1 1 (ascii "y\n")

/-- The file `a`, still holding "x\n", and the edited merged document `docEdit`. -/
def fsEdit : FS := fsOf [(ascii "a", ascii "x\n"), (mergePath, docEdit)]

/-- The first split of the example `fsEdit`, one file being tracked. -/
def splitEditFirst : Exit × SplitState :=
  split stack0 mergePath tempPath 1 [⟨5, 0⟩] fsEdit

/-- The reads of an example: the first two pairs are torn, the third agrees. -/
def readsTorn (j : Nat) : List Byte :=
  if j = 0 then ascii "a" else if j = 1 then ascii "ab" else if j = 2 then ascii "ab"
  else if j = 3 then [] else ascii "abc"

/-- A merged document for two tracked files that holds the record of the first
one only. -/
def docShort : List Byte := recordOf (ascii "a") 1 2 (ascii "x\n")

/-- The files `a` and `b` and the merged document `docShort`. -/
def fsShort : FS :=
  fsOf [(ascii "a", ascii "x\n"), (ascii "b", ascii "y\n"), (mergePath, docShort)]

/-- A merged document for one tracked file that holds a second record, with
index 2 and total 1, whose body differs from the file. -/
def docOverrun : List Byte :=
  recordOf (ascii "a") 1 1 (ascii "x\n") ++ recordOf (ascii "a") 2 1 (ascii "y\n")

/-- The file `a` and the merged document `docOverrun`. -/
def fsOverrun : FS := fsOf [(ascii "a", ascii "x\n"), (mergePath, docOverrun)]

/-- Two tracked text files, `aT` and `a`: the first is named like the temporary
output of the second. -/
def fsTemp : FS := fsOf [(ascii "aT", ascii "y\n"), (ascii "a", ascii "x\n")]

/-! ## Lemmas -/

set_option maxRecDepth 1000000

theorem binarychar_toChar (sc : Bool) (b : Byte) :
    binarychar (toChar sc b) = true ↔ ¬ isTextByte b := by
  have hb := b.isLt
  unfold binarychar toChar isTextByte
  cases sc <;> simp <;> omega

theorem binarydata_zero_or_one (sc : Bool) (buf : List Byte) (n : Nat) :
    binarydata sc buf n = 0 ∨ binarydata sc buf n = 1 := by
  induction buf generalizing n with
  | nil => cases n <;> simp [binarydata]
  | cons b buf ih =>
    cases n with
    | zero => simp [binarydata]
    | succ n =>
      simp only [binarydata]
      split
      · right; rfl
      · exact ih n

theorem binarydata_eq_one_iff (sc : Bool) (buf : List Byte) (n : Nat) :
    binarydata sc buf n = 1 ↔ ∃ b ∈ buf.take n, ¬ isTextByte b := by
  induction buf generalizing n with
  | nil => cases n <;> simp [binarydata]
  | cons b buf ih =>
    cases n with
    | zero => simp [binarydata]
    | succ n =>
      simp only [binarydata, List.take_succ_cons, List.mem_cons, exists_eq_or_imp]
      by_cases h : binarychar (toChar sc b) = true
      · simp [h, (binarychar_toChar sc b).1 h]
      · have h' : isTextByte b := by
          by_contra hc; exact h ((binarychar_toChar sc b).2 hc)
        simp [h, h', ih n]

theorem binarydata_ne_zero_iff (sc : Bool) (chunk : List Byte) :
    binarydata sc chunk chunk.length ≠ 0 ↔ ∃ b ∈ chunk, ¬ isTextByte b := by
  have h := binarydata_eq_one_iff sc chunk chunk.length
  rw [List.take_length] at h
  rw [← h]
  rcases binarydata_zero_or_one sc chunk chunk.length with h0 | h1
  · simp [h0]
  · simp [h1]

theorem TEMPBUFSIZE_pos : 0 < TEMPBUFSIZE := by decide

theorem copyLoop_text (sc : Bool) (fuel : Nat) (inp out : List Byte)
    (hf : inp.length < fuel) (ht : ∀ b ∈ inp, isTextByte b) :
    copyLoop sc fuel inp out = (false, out ++ inp) := by
  induction fuel generalizing inp out with
  | zero => omega
  | succ fuel ih =>
    unfold copyLoop
    by_cases hnil : inp = []
    · subst hnil; simp
    · have hlen : 0 < inp.length := List.length_pos.2 hnil
      have hpos := TEMPBUFSIZE_pos
      have hchunk : ¬ (List.take TEMPBUFSIZE inp).length ≤ 0 := by
        rw [List.length_take]; omega
      have hbin : ¬ binarydata sc (List.take TEMPBUFSIZE inp) (List.take TEMPBUFSIZE inp).length ≠ 0 := by
        rw [binarydata_ne_zero_iff]
        rintro ⟨b, hb, hn⟩
        exact hn (ht b (List.mem_of_mem_take hb))
      rw [if_neg hchunk, if_neg hbin]
      rw [ih _ _ (by rw [List.length_drop]; omega) (fun b hb => ht b (List.mem_of_mem_drop hb))]
      rw [List.append_assoc, List.take_append_drop]

theorem copyLoop_binary (sc : Bool) (fuel : Nat) (inp out : List Byte)
    (hf : inp.length < fuel) (hb : ∃ b ∈ inp, ¬ isTextByte b) :
    ∃ k, copyLoop sc fuel inp out = (true, out ++ inp.take (k * TEMPBUFSIZE)) ∧
      ((∀ b ∈ inp.take (k * TEMPBUFSIZE), isTextByte b) ∧
        ∃ b ∈ (inp.drop (k * TEMPBUFSIZE)).take TEMPBUFSIZE, ¬ isTextByte b) := by
  induction fuel generalizing inp out with
  | zero => omega
  | succ fuel ih =>
    unfold copyLoop
    have hnil : inp ≠ [] := by
      rintro rfl
      simp at hb
    have hlen : 0 < inp.length := List.length_pos.2 hnil
    have hpos := TEMPBUFSIZE_pos
    have hchunk : ¬ (List.take TEMPBUFSIZE inp).length ≤ 0 := by
      rw [List.length_take]; omega
    by_cases hbin : binarydata sc (List.take TEMPBUFSIZE inp) (List.take TEMPBUFSIZE inp).length ≠ 0
    · refine ⟨0, ?_, ?_, ?_⟩
      · rw [if_neg hchunk, if_pos hbin]; simp
      · simp
      · rw [binarydata_ne_zero_iff] at hbin
        obtain ⟨b, hbm, hbn⟩ := hbin
        refine ⟨b, ?_, hbn⟩
        simpa using hbm
    · rw [if_neg hchunk, if_neg hbin]
      have htext : ∀ b ∈ List.take TEMPBUFSIZE inp, isTextByte b := by
        rw [binarydata_ne_zero_iff] at hbin
        intro b hb'
        by_contra hc
        exact hbin ⟨b, hb', hc⟩
      have hb2 : ∃ b ∈ List.drop TEMPBUFSIZE inp, ¬ isTextByte b := by
        obtain ⟨b, hbm, hbn⟩ := hb
        rw [← List.take_append_drop TEMPBUFSIZE inp, List.mem_append] at hbm
        rcases hbm with h | h
        · exact absurd (htext b h) hbn
        · exact ⟨b, h, hbn⟩
      obtain ⟨k, hk, hkt⟩ := ih (List.drop TEMPBUFSIZE inp) (out ++ List.take TEMPBUFSIZE inp)
        (by rw [List.length_drop]; omega) hb2
      have hsplit : List.take ((k + 1) * TEMPBUFSIZE) inp =
          List.take TEMPBUFSIZE inp ++ List.take (k * TEMPBUFSIZE) (List.drop TEMPBUFSIZE inp) := by
        have : (k + 1) * TEMPBUFSIZE = TEMPBUFSIZE + k * TEMPBUFSIZE := by ring
        rw [this, List.take_add]
      refine ⟨k + 1, ?_, ?_, ?_⟩
      · rw [hk, hsplit, List.append_assoc]
      · intro b hb'
        rw [hsplit, List.mem_append] at hb'
        rcases hb' with h | h
        · exact htext b h
        · exact hkt.1 b h
      · obtain ⟨b, hbm, hbn⟩ := hkt.2
        refine ⟨b, ?_, hbn⟩
        rw [List.drop_drop] at hbm
        have e : TEMPBUFSIZE + k * TEMPBUFSIZE = (k + 1) * TEMPBUFSIZE := by ring
        rw [e] at hbm
        exact hbm

theorem writefile_text (sc : Bool) (fs : FS) (out : List Byte) (p : Path) (i n : Int) (f : File)
    (hf : fs.openR p = some f) (ht : ∀ b ∈ f.data, isTextByte b) :
    writefile sc fs out p i n = (.ok, out ++ recordOf p i n f.data) := by
  unfold writefile
  rw [hf]
  simp only
  rw [copyLoop_text sc _ _ _ (Nat.lt_succ_self _) ht]
  simp [recordOf, List.append_assoc]

theorem writefile_binary (sc : Bool) (fs : FS) (out : List Byte) (p : Path) (i n : Int) (f : File)
    (hf : fs.openR p = some f) (hb : ∃ b ∈ f.data, ¬ isTextByte b) :
    ∃ k, writefile sc fs out p i n =
        (.binaryFile p, out ++ startMarker p i n ++ f.data.take (k * TEMPBUFSIZE)) ∧
      ((∀ b ∈ f.data.take (k * TEMPBUFSIZE), isTextByte b) ∧
        ∃ b ∈ (f.data.drop (k * TEMPBUFSIZE)).take TEMPBUFSIZE, ¬ isTextByte b) := by
  obtain ⟨k, hk, hkt⟩ := copyLoop_binary sc (f.data.length + 1) f.data
    (out ++ startMarker p i n) (Nat.lt_succ_self _) hb
  refine ⟨k, ?_, hkt⟩
  unfold writefile
  rw [hf]
  simp only
  rw [hk]

theorem mergeLoop_text (sc : Bool) (fs : FS) (n : Int) (stack : Time)
    (files : List (Path × List Byte)) (i : Int) (out : List Byte) (times : List Time)
    (h : ∀ pc ∈ files, holdsText fs pc) :
    mergeLoop sc fs n stack (files.map Prod.fst) i out times =
      (.ok, out ++ mergedDocument n (i + 1) files,
        times ++ files.map (fun pc => filetime fs pc.1 stack)) := by
  induction files generalizing i out times with
  | nil => simp [mergeLoop, mergedDocument]
  | cons pc rest ih =>
    obtain ⟨f, hf, hd, ht⟩ := h pc (List.mem_cons_self _ _)
    simp only [List.map_cons, mergeLoop]
    rw [writefile_text sc fs out pc.1 (i + 1) n f hf (hd ▸ ht)]
    simp only
    rw [ih (i + 1) _ _ (fun q hq => h q (List.mem_cons_of_mem _ hq))]
    obtain ⟨p, c⟩ := pc
    simp only at hd
    subst hd
    simp [mergedDocument, List.append_assoc]

theorem mergeLoop_binary (sc : Bool) (fs : FS) (n : Int) (stack : Time)
    (pre : List (Path × List Byte)) (p : Path) (post : List Path) (f : File)
    (i : Int) (out : List Byte) (times : List Time)
    (h : ∀ pc ∈ pre, holdsText fs pc) (hf : fs.openR p = some f)
    (hb : ∃ b ∈ f.data, ¬ isTextByte b) :
    ∃ k, mergeLoop sc fs n stack (pre.map Prod.fst ++ p :: post) i out times =
        (.binaryFile p,
          out ++ mergedDocument n (i + 1) pre ++ startMarker p (i + pre.length + 1) n ++
            f.data.take (k * TEMPBUFSIZE),
          times ++ pre.map (fun pc => filetime fs pc.1 stack)) ∧
      ((∀ b ∈ f.data.take (k * TEMPBUFSIZE), isTextByte b) ∧
        ∃ b ∈ (f.data.drop (k * TEMPBUFSIZE)).take TEMPBUFSIZE, ¬ isTextByte b) := by
  induction pre generalizing i out times with
  | nil =>
    obtain ⟨k, hk, hkt⟩ := writefile_binary sc fs out p (i + 1) n f hf hb
    refine ⟨k, ?_, hkt⟩
    simp only [List.map_nil, List.nil_append, mergeLoop]
    rw [hk]
    simp [mergedDocument]
  | cons pc rest ih =>
    obtain ⟨g, hg, hd, ht⟩ := h pc (List.mem_cons_self _ _)
    obtain ⟨k, hk, hkt⟩ := ih (i + 1) (out ++ recordOf pc.1 (i + 1) n g.data)
      (times ++ [filetime fs pc.1 stack]) (fun q hq => h q (List.mem_cons_of_mem _ hq))
    refine ⟨k, ?_, hkt⟩
    simp only [List.map_cons, List.cons_append, mergeLoop]
    rw [writefile_text sc fs out pc.1 (i + 1) n g hg (hd ▸ ht)]
    simp only
    erw [hk]
    obtain ⟨q, c⟩ := pc
    simp only at hd
    subst hd
    have e : i + 1 + (rest.length : Int) + 1 = i + ((rest.length : Int) + 1) + 1 := by ring
    simp [mergedDocument, List.append_assoc, e]

theorem fopenW_files (fs fs1 : FS) (p : Path) (h : fs.fopenW p = some fs1) :
    fs.wdeny p = false ∧ fs1.files p = some ⟨[], fs.clock fs.tick⟩ ∧
      (∀ q, q ≠ p → fs1.files q = fs.files q) ∧ fs1.wdeny = fs.wdeny := by
  unfold FS.fopenW at h
  by_cases hw : fs.wdeny p = true
  · simp [hw] at h
  · rw [if_neg hw] at h
    cases h
    refine ⟨by simpa using hw, by simp [FS.setFile], ?_, rfl⟩
    intro q hq
    simp [FS.setFile, hq]

theorem fopenW_of_allowed (fs : FS) (p : Path) (h : fs.wdeny p = false) :
    ∃ fs1, fs.fopenW p = some fs1 := by
  unfold FS.fopenW
  simp [h]

theorem flush_data (fs : FS) (p : Path) (out : List Byte) (t : Time)
    (h : fs.files p = some ⟨[], t⟩) :
    ((fs.flush p out).openR p).map File.data = some out := by
  unfold FS.flush FS.openR
  rw [h]
  by_cases ho : out = []
  · simp [ho, h]
  · simp [ho, FS.setFile]

theorem flush_files_other (fs : FS) (p q : Path) (out : List Byte) (hq : q ≠ p) :
    (fs.flush p out).files q = fs.files q := by
  unfold FS.flush
  cases hp : fs.files p with
  | none => rfl
  | some f =>
    by_cases ho : out = []
    · simp [ho]
    · simp [ho, FS.setFile, hq]

theorem split_at_first_binary (fs : FS) (names : List Path)
    (hopen : ∀ p ∈ names, (fs.openR p).isSome)
    (hb : ∃ p ∈ names, ∃ f, fs.openR p = some f ∧ ∃ b ∈ f.data, ¬ isTextByte b) :
    ∃ (pre : List (Path × List Byte)) (p : Path) (post : List Path) (f : File),
      names = pre.map Prod.fst ++ p :: post ∧ (∀ pc ∈ pre, holdsText fs pc) ∧
      fs.openR p = some f ∧ ∃ b ∈ f.data, ¬ isTextByte b := by
  induction names with
  | nil => simp at hb
  | cons q rest ih =>
    obtain ⟨g, hg⟩ := Option.isSome_iff_exists.1 (hopen q (List.mem_cons_self _ _))
    by_cases hq : ∃ b ∈ g.data, ¬ isTextByte b
    · exact ⟨[], q, rest, g, by simp, by simp, hg, hq⟩
    · have hb' : ∃ p ∈ rest, ∃ f, fs.openR p = some f ∧ ∃ b ∈ f.data, ¬ isTextByte b := by
        obtain ⟨p, hp, f, hf, hbf⟩ := hb
        rcases List.mem_cons.1 hp with rfl | hp'
        · rw [hg] at hf
          cases hf
          exact absurd hbf hq
        · exact ⟨p, hp', f, hf, hbf⟩
      obtain ⟨pre, p, post, f, hn, hpre, hf, hbf⟩ :=
        ih (fun p hp => hopen p (List.mem_cons_of_mem _ hp)) hb'
      refine ⟨(q, g.data) :: pre, p, post, f, by simp [hn], ?_, hf, hbf⟩
      intro pc hpc
      rcases List.mem_cons.1 hpc with rfl | h
      · refine ⟨g, hg, rfl, ?_⟩
        intro b hbm
        by_contra hc
        exact hq ⟨b, hbm, hc⟩
      · exact hpre pc h

theorem holdsText_of_other (fs fs1 : FS) (mf : Path) (files : List (Path × List Byte))
    (hmf : mf ∉ files.map Prod.fst) (hfs : ∀ q, q ≠ mf → fs1.files q = fs.files q)
    (h : ∀ pc ∈ files, holdsText fs pc) : ∀ pc ∈ files, holdsText fs1 pc := by
  intro pc hpc
  obtain ⟨f, hf, hd, ht⟩ := h pc hpc
  have hne : pc.1 ≠ mf := by
    rintro rfl
    exact hmf (List.mem_map_of_mem _ hpc)
  exact ⟨f, by simpa [FS.openR, hfs pc.1 hne] using hf, hd, ht⟩

theorem merge_text (sc : Bool) (mf : Path) (files : List (Path × List Byte)) (stack : Time)
    (fs : FS) (hw : fs.wdeny mf = false) (hmf : mf ∉ files.map Prod.fst)
    (h : ∀ pc ∈ files, holdsText fs pc) :
    (merge sc mf (files.map Prod.fst) stack fs).1 = .ok ∧
    ((merge sc mf (files.map Prod.fst) stack fs).2.1.openR mf).map File.data =
      some (mergedDocument files.length 1 files) := by
  obtain ⟨fs1, h1⟩ := fopenW_of_allowed fs mf hw
  obtain ⟨_, hfile, hother, _⟩ := fopenW_files fs fs1 mf h1
  have h' := holdsText_of_other fs fs1 mf files hmf hother h
  unfold merge
  rw [h1]
  simp only [List.length_map]
  rw [mergeLoop_text sc fs1 _ stack files 0 [] [] h']
  simp only [List.nil_append, zero_add]
  exact ⟨trivial, flush_data fs1 mf _ _ hfile⟩

theorem merge_binary (sc : Bool) (mf : Path) (pre : List (Path × List Byte)) (p : Path)
    (post : List Path) (f : File) (stack : Time) (fs : FS)
    (hw : fs.wdeny mf = false) (hmf : mf ∉ pre.map Prod.fst ++ p :: post)
    (h : ∀ pc ∈ pre, holdsText fs pc) (hf : fs.openR p = some f)
    (hb : ∃ b ∈ f.data, ¬ isTextByte b) :
    ∃ k, (merge sc mf (pre.map Prod.fst ++ p :: post) stack fs).1 = .binaryFile p ∧
      ((merge sc mf (pre.map Prod.fst ++ p :: post) stack fs).2.1.openR mf).map File.data =
        some (mergedDocument (pre.map Prod.fst ++ p :: post).length 1 pre ++
          startMarker p (pre.length + 1) (pre.map Prod.fst ++ p :: post).length ++
          f.data.take (k * TEMPBUFSIZE)) ∧
      ((∀ b ∈ f.data.take (k * TEMPBUFSIZE), isTextByte b) ∧
        ∃ b ∈ (f.data.drop (k * TEMPBUFSIZE)).take TEMPBUFSIZE, ¬ isTextByte b) := by
  obtain ⟨fs1, h1⟩ := fopenW_of_allowed fs mf hw
  obtain ⟨_, hfile, hother, _⟩ := fopenW_files fs fs1 mf h1
  have hmf1 : mf ∉ pre.map Prod.fst := fun hc => hmf (List.mem_append_left _ hc)
  have hmf2 : p ≠ mf := by
    rintro rfl
    exact hmf (List.mem_append_right _ (List.mem_cons_self _ _))
  have h' := holdsText_of_other fs fs1 mf pre hmf1 hother h
  have hf' : fs1.openR p = some f := by simpa [FS.openR, hother p hmf2] using hf
  obtain ⟨k, hk, hkt⟩ := mergeLoop_binary sc fs1 (pre.map Prod.fst ++ p :: post).length stack
    pre p post f 0 [] [] h' hf' hb
  refine ⟨k, ?_, ?_, hkt⟩
  · unfold merge
    rw [h1]
    simp only
    rw [hk]
  · unfold merge
    rw [h1]
    simp only
    rw [hk]
    simp only [List.nil_append, zero_add]
    exact flush_data fs1 mf _ _ hfile

theorem cstr_eq_self (s : List Byte) (h : (0 : Byte) ∉ s) : cstr s = s := by
  induction s with
  | nil => rfl
  | cons c s ih =>
    have hc : c ≠ 0 := fun e => h (e ▸ List.mem_cons_self _ _)
    have hs : (0 : Byte) ∉ s := fun e => h (List.mem_cons_of_mem _ e)
    simp [cstr, hc, ih hs]

theorem strstr_self_append (pat b : List Byte) : (strstr (pat ++ b) pat).isSome = true := by
  cases h : pat ++ b with
  | nil =>
    have : pat = [] := (List.append_eq_nil.1 h).1
    simp [strstr, this]
  | cons c s =>
    have hp : pat.isPrefixOf (c :: s) = true := by
      rw [← h]
      simp
    simp [strstr, hp]

theorem strstr_append_left (a s pat : List Byte) (h : (strstr s pat).isSome = true) :
    (strstr (a ++ s) pat).isSome = true := by
  induction a with
  | nil => exact h
  | cons x a ih =>
    simp only [List.cons_append, strstr]
    split
    · rfl
    · simp [ih]

theorem strstr_middle (a pat b : List Byte) : (strstr (a ++ (pat ++ b)) pat).isSome = true :=
  strstr_append_left a _ pat (strstr_self_append pat b)

theorem strstartswith_append (pat b : List Byte) (hp : pat ≠ []) :
    strstartswith (pat ++ b) pat = true := by
  cases pat with
  | nil => exact absurd rfl hp
  | cons c t =>
    have h : (c :: t).isPrefixOf (c :: (t ++ b)) = true := by simp
    simp [strstartswith, strstr, h]

theorem lindex_append (a b : List Byte) (c : Byte) (h : c ∉ a) :
    lindex (a ++ c :: b) c = some a.length := by
  induction a with
  | nil => simp [lindex]
  | cons x a ih =>
    have hx : x ≠ c := fun e => h (e ▸ List.mem_cons_self _ _)
    have ha : c ∉ a := fun e => h (List.mem_cons_of_mem _ e)
    simp [lindex, hx, ih ha]

theorem digitChar_val (n : Nat) : (digitChar n).val = 48 + n % 10 := by
  unfold digitChar
  have h : n % 10 < 10 := Nat.mod_lt _ (by decide)
  show (48 + n % 10) % 256 = 48 + n % 10
  omega

theorem isdigit_digitChar (n : Nat) : isdigit (digitChar n) = true := by
  have h := digitChar_val n
  have h2 : n % 10 < 10 := Nat.mod_lt _ (by decide)
  simp [isdigit, h]
  omega

theorem revDigits_isdigit (fuel n : Nat) : ∀ c ∈ revDigits fuel n, isdigit c = true := by
  induction fuel generalizing n with
  | zero => simp [revDigits]
  | succ fuel ih =>
    intro c hc
    simp only [revDigits, List.mem_cons] at hc
    rcases hc with rfl | hc
    · exact isdigit_digitChar n
    · split at hc
      · simp at hc
      · exact ih _ c hc

theorem revDigits_ne_nil (fuel n : Nat) : revDigits (fuel + 1) n ≠ [] := by
  simp [revDigits]

theorem atoiDigits_snoc (l : List Byte) (d : Byte) (acc : Int)
    (hl : ∀ c ∈ l, isdigit c = true) (hd : isdigit d = true) :
    atoiDigits (l ++ [d]) acc = atoiDigits l acc * 10 + ((d.val : Int) - 48) := by
  induction l generalizing acc with
  | nil => simp [atoiDigits, hd]
  | cons c l ih =>
    have hc : isdigit c = true := hl c (List.mem_cons_self _ _)
    simp only [List.cons_append, atoiDigits, hc, if_true]
    exact ih _ (fun x hx => hl x (List.mem_cons_of_mem _ hx))

theorem atoiDigits_revDigits (fuel n : Nat) (h : n < fuel) :
    atoiDigits (revDigits fuel n).reverse 0 = (n : Int) := by
  induction fuel generalizing n with
  | zero => omega
  | succ fuel ih =>
    simp only [revDigits, List.reverse_cons]
    rw [atoiDigits_snoc _ _ _ _ (isdigit_digitChar n)]
    · rw [digitChar_val]
      by_cases hn : n < 10
      · simp only [hn, if_true, List.reverse_nil, atoiDigits]
        have : n % 10 = n := Nat.mod_eq_of_lt hn
        push_cast
        omega
      · simp only [hn, if_false]
        rw [ih (n / 10) (by omega)]
        push_cast
        omega
    · intro c hc
      rw [List.mem_reverse] at hc
      split at hc
      · simp at hc
      · exact revDigits_isdigit _ _ c hc

/-- Bytes of `fmtd z` for `0 ≤ z` are decimal digits. -/
theorem fmtd_isdigit (z : Int) (hz : 0 ≤ z) : ∀ c ∈ fmtd z, isdigit c = true := by
  intro c hc
  unfold fmtd at hc
  rw [if_neg (by omega)] at hc
  rw [List.mem_reverse] at hc
  exact revDigits_isdigit _ _ c hc

theorem fmtd_not_mem (z : Int) (hz : 0 ≤ z) (c : Byte) (hc : isdigit c = false) : c ∉ fmtd z := by
  intro h
  rw [fmtd_isdigit z hz c h] at hc
  exact Bool.noConfusion hc

theorem decimalValue_fmtd (z : Int) (hz : 0 ≤ z) : decimalValue (fmtd z) = z := by
  have hd := fmtd_isdigit z hz
  have hval : atoiDigits (fmtd z) 0 = z := by
    unfold fmtd
    rw [if_neg (by omega), atoiDigits_revDigits _ _ (Nat.lt_succ_self _)]
    omega
  cases hf : fmtd z with
  | nil =>
    unfold fmtd at hf
    rw [if_neg (by omega)] at hf
    simp [revDigits] at hf
  | cons c t =>
    rw [hf] at hd hval
    have hc : isdigit c = true := hd c (List.mem_cons_self _ _)
    have hv : 48 ≤ c.val ∧ c.val ≤ 57 := by simpa [isdigit] using hc
    have h32 : c ≠ 32 := by
      intro e
      have h : c.val = 32 := by rw [e]; rfl
      omega
    have h45 : c ≠ 45 := by
      intro e
      have h : c.val = 45 := by rw [e]; rfl
      omega
    have h43 : c ≠ 43 := by
      intro e
      have h : c.val = 43 := by rw [e]; rfl
      omega
    have hns : isspace c = false := by
      simp only [isspace, Bool.or_eq_false_iff, decide_eq_false_iff_not, Bool.and_eq_false_iff]
      exact ⟨h32, Or.inr (by omega)⟩
    unfold decimalValue
    simp only [List.dropWhile, hns]
    rw [if_neg h45, if_neg h43]
    exact hval

theorem atoi_fmtd_long (z : Int) (hz : 0 ≤ z) :
    atoi (fmtd z) = longToInt (min z (2 ^ 63 - 1)) := by
  unfold atoi strtol
  rw [decimalValue_fmtd z hz]
  congr 1
  omega

theorem atoi_fmtd (z : Int) (hz : 0 ≤ z) (hz2 : z < 2 ^ 31) : atoi (fmtd z) = z := by
  rw [atoi_fmtd_long z hz]
  unfold longToInt
  omega

theorem ascii_open : ascii "// [" = [47, 47, 32, 91] := by decide

theorem ascii_start : ascii "] Start Fileno: [" =
    93 :: (ascii " " ++ (ascii "Start" ++ (ascii " " ++ (ascii "Fileno:" ++ [32, 91])))) := by decide

theorem ascii_end : ascii "] End Fileno: [" =
    93 :: (ascii " " ++ (ascii "End" ++ (ascii " " ++ (ascii "Fileno:" ++ [32, 91])))) := by decide

theorem ascii_colon : ascii ":" = [58] := by decide

theorem markerTail_eq : markerTail =
    93 :: (ascii " *************************************************" ++
      (ascii "********* VIP" ++ [10])) := by decide

theorem marker_no_nul (p : Path) (i n : Int) (mid : List Byte) (hp : (0 : Byte) ∉ p)
    (hi : 0 ≤ i) (hn : 0 ≤ n) (hmid : (0 : Byte) ∉ mid) :
    (0 : Byte) ∉ ascii "// [" ++ p ++ mid ++ fmtd i ++ ascii ":" ++ fmtd n ++ markerTail := by
  have h1 : (0 : Byte) ∉ fmtd i := fmtd_not_mem i hi 0 (by decide)
  have h2 : (0 : Byte) ∉ fmtd n := fmtd_not_mem n hn 0 (by decide)
  have h3 : (0 : Byte) ∉ ascii "// [" := by decide
  have h4 : (0 : Byte) ∉ ascii ":" := by decide
  have h5 : (0 : Byte) ∉ markerTail := by decide
  simp only [List.mem_append, not_or]
  exact ⟨⟨⟨⟨⟨⟨h3, hp⟩, hmid⟩, h1⟩, h4⟩, h2⟩, h5⟩

theorem isStart_startMarker (p : Path) (i n : Int) (hp : (0 : Byte) ∉ p)
    (hi : 0 ≤ i) (hn : 0 ≤ n) : isStart (startMarker p i n) = true := by
  have h0 := marker_no_nul p i n (ascii "] Start Fileno: [") hp hi hn (by decide)
  unfold isStart
  rw [show startMarker p i n = ascii "// [" ++ p ++ ascii "] Start Fileno: [" ++ fmtd i ++
    ascii ":" ++ fmtd n ++ markerTail from rfl, cstr_eq_self _ h0]
  have e1 : ascii "// [" = ascii "//" ++ [32, 91] := by decide
  have a1 : strstartswith (ascii "// [" ++ p ++ ascii "] Start Fileno: [" ++ fmtd i ++
      ascii ":" ++ fmtd n ++ markerTail) (ascii "//") = true := by
    rw [e1]
    simp only [List.append_assoc]
    exact strstartswith_append _ _ (by decide)
  have a2 : (strstr (ascii "// [" ++ p ++ ascii "] Start Fileno: [" ++ fmtd i ++
      ascii ":" ++ fmtd n ++ markerTail) (ascii "Start")).isSome = true := by
    rw [ascii_start]
    simp only [List.append_assoc, List.cons_append]
    apply strstr_append_left
    apply strstr_append_left
    exact strstr_middle (93 :: ascii " ") _ _
  have a3 : (strstr (ascii "// [" ++ p ++ ascii "] Start Fileno: [" ++ fmtd i ++
      ascii ":" ++ fmtd n ++ markerTail) (ascii "Fileno:")).isSome = true := by
    rw [ascii_start]
    simp only [List.append_assoc, List.cons_append]
    apply strstr_append_left
    apply strstr_append_left
    exact strstr_middle (93 :: (ascii " " ++ (ascii "Start" ++ ascii " "))) _ _
  have a4 : (strstr (ascii "// [" ++ p ++ ascii "] Start Fileno: [" ++ fmtd i ++
      ascii ":" ++ fmtd n ++ markerTail) (ascii "********* VIP")).isSome = true := by
    rw [markerTail_eq]
    simp only [List.append_assoc, List.cons_append]
    apply strstr_append_left
    apply strstr_append_left
    apply strstr_append_left
    apply strstr_append_left
    apply strstr_append_left
    apply strstr_append_left
    exact strstr_middle (93 :: ascii " *************************************************") _ _
  rw [a1, a2, a3, a4]
  rfl

theorem isEnd_endMarker (p : Path) (i n : Int) (hp : (0 : Byte) ∉ p)
    (hi : 0 ≤ i) (hn : 0 ≤ n) : isEnd (endMarker p i n) = true := by
  have h0 := marker_no_nul p i n (ascii "] End Fileno: [") hp hi hn (by decide)
  unfold isEnd
  rw [show endMarker p i n = ascii "// [" ++ p ++ ascii "] End Fileno: [" ++ fmtd i ++
    ascii ":" ++ fmtd n ++ markerTail from rfl, cstr_eq_self _ h0]
  have e1 : ascii "// [" = ascii "//" ++ [32, 91] := by decide
  have a1 : strstartswith (ascii "// [" ++ p ++ ascii "] End Fileno: [" ++ fmtd i ++
      ascii ":" ++ fmtd n ++ markerTail) (ascii "//") = true := by
    rw [e1]
    simp only [List.append_assoc]
    exact strstartswith_append _ _ (by decide)
  have a2 : (strstr (ascii "// [" ++ p ++ ascii "] End Fileno: [" ++ fmtd i ++
      ascii ":" ++ fmtd n ++ markerTail) (ascii "End")).isSome = true := by
    rw [ascii_end]
    simp only [List.append_assoc, List.cons_append]
    apply strstr_append_left
    apply strstr_append_left
    exact strstr_middle (93 :: ascii " ") _ _
  have a3 : (strstr (ascii "// [" ++ p ++ ascii "] End Fileno: [" ++ fmtd i ++
      ascii ":" ++ fmtd n ++ markerTail) (ascii "Fileno:")).isSome = true := by
    rw [ascii_end]
    simp only [List.append_assoc, List.cons_append]
    apply strstr_append_left
    apply strstr_append_left
    exact strstr_middle (93 :: (ascii " " ++ (ascii "End" ++ ascii " "))) _ _
  have a4 : (strstr (ascii "// [" ++ p ++ ascii "] End Fileno: [" ++ fmtd i ++
      ascii ":" ++ fmtd n ++ markerTail) (ascii "********* VIP")).isSome = true := by
    rw [markerTail_eq]
    simp only [List.append_assoc, List.cons_append]
    apply strstr_append_left
    apply strstr_append_left
    apply strstr_append_left
    apply strstr_append_left
    apply strstr_append_left
    apply strstr_append_left
    exact strstr_middle (93 :: ascii " *************************************************") _ _
  rw [a1, a2, a3, a4]
  rfl

theorem drop_after (a b : List Byte) (c : Byte) : (a ++ c :: b).drop (a.length + 1) = b := by
  induction a with
  | nil => rfl
  | cons x a ih => simp

theorem take_before (a b : List Byte) : (a ++ b).take a.length = a := by
  simp

theorem ascii_start_flat : ascii "] Start Fileno: [" =
    93 :: (ascii " Start Fileno: " ++ [91]) := by decide

theorem parseStart_startMarker_atoi (p : Path) (i n : Int) (hp : (0 : Byte) ∉ p)
    (hb : (93 : Byte) ∉ p) (hi : 0 ≤ i) (hn : 0 ≤ n) :
    parseStart (startMarker p i n) = .ok (p, atoi (fmtd i), atoi (fmtd n)) := by
  have h0 := marker_no_nul p i n (ascii "] Start Fileno: [") hp hi hn (by decide)
  have hshape : startMarker p i n =
      ascii "// " ++ 91 :: (p ++ 93 :: (ascii " Start Fileno: " ++ 91 ::
        ((fmtd i ++ 58 :: fmtd n) ++ 93 :: ascii " ********************************************************** VIP\n"))) := by
    have e1 : ascii "// [" = ascii "// " ++ [91] := by decide
    have e2 : markerTail = 93 :: ascii " ********************************************************** VIP\n" := by
      decide
    unfold startMarker
    rw [e1, ascii_start_flat, ascii_colon, e2]
    simp only [List.append_assoc, List.cons_append, List.nil_append]
  have hi93 : (93 : Byte) ∉ fmtd i := fmtd_not_mem i hi 93 (by decide)
  have hn93 : (93 : Byte) ∉ fmtd n := fmtd_not_mem n hn 93 (by decide)
  have hi58 : (58 : Byte) ∉ fmtd i := fmtd_not_mem i hi 58 (by decide)
  have hmid : (93 : Byte) ∉ fmtd i ++ 58 :: fmtd n := by
    simp only [List.mem_append, List.mem_cons, not_or]
    exact ⟨hi93, by decide, hn93⟩
  unfold parseStart
  simp only
  rw [cstr_eq_self _ (show (0 : Byte) ∉ startMarker p i n from h0)]
  rw [hshape, lindex_append _ _ 91 (by decide)]
  simp only [drop_after]
  rw [lindex_append _ _ 93 hb]
  simp only [drop_after, take_before]
  rw [lindex_append _ _ 91 (by decide)]
  simp only [drop_after]
  rw [lindex_append _ _ 93 hmid]
  simp only [take_before]
  rw [lindex_append _ _ 58 hi58]
  simp only [drop_after, take_before]

theorem parseStart_startMarker (p : Path) (i n : Int) (hp : (0 : Byte) ∉ p)
    (hb : (93 : Byte) ∉ p) (hi : 0 ≤ i) (hn : 0 ≤ n) (hi2 : i < 2 ^ 31) (hn2 : n < 2 ^ 31) :
    parseStart (startMarker p i n) = .ok (p, i, n) := by
  rw [parseStart_startMarker_atoi p i n hp hb hi hn, atoi_fmtd i hi hi2, atoi_fmtd n hn hn2]

theorem sameBytes_eq (d1 d2 : List Byte) (h : d1.length = d2.length) :
    sameBytes d1 d2 d1.length = if d1 = d2 then 1 else 0 := by
  induction d1 generalizing d2 with
  | nil =>
    cases d2 with
    | nil => simp [sameBytes]
    | cons c d => simp at h
  | cons c1 d1 ih =>
    cases d2 with
    | nil => simp at h
    | cons c2 d2 =>
      simp only [List.length_cons, add_left_inj] at h
      simp only [List.length_cons, sameBytes, List.cons.injEq]
      by_cases hc : c1 = c2
      · simp [hc, ih d2 h]
      · simp [hc]

theorem datasame_eq (d1 d2 : List Byte) :
    datasame d1 d2 d1.length d2.length = if d1 = d2 then 1 else 0 := by
  unfold datasame
  by_cases h : d1.length = d2.length
  · simp [h]
    rw [← h, sameBytes_eq d1 d2 h]
  · have hne : d1 ≠ d2 := fun e => h (e ▸ rfl)
    simp [h, hne]

theorem datafromfile_fst (fs : FS) (p : Path) :
    (datafromfile fs p).1 = (fs.openR p).map File.data := by
  unfold datafromfile
  cases h : fs.openR p with
  | none => rfl
  | some f =>
    simp only [Option.map_some']
    by_cases h0 : f.data.length ≤ 0
    · rw [if_pos h0]
      have : f.data = [] := List.length_eq_zero.1 (by omega)
      rw [this]
    · rw [if_neg h0]

/-- The result of `filesame` in terms of the results of its two reads. -/
theorem filesame_fst (fs : FS) (p1 p2 : Path) :
    (filesame fs p1 p2).1 =
      match (datafromfile fs p1).1 with
      | none => .error (.errorexit "datafromfile failed 1" (some p1))
      | some data1 =>
        match (datafromfile fs p2).1 with
        | none => .error (.errorexit "datafromfile failed 2" (some p2))
        | some data2 =>
          if data1.length = 0 ∧ data2.length = 0 then .ok 1
          else if data1.length ≠ data2.length then .ok 0
          else .ok (sameBytes data1 data2 data1.length) := by
  unfold filesame
  rcases datafromfile fs p1 with ⟨_ | d1, k1⟩
  · rfl
  · rcases datafromfile fs p2 with ⟨_ | d2, k2⟩
    · rfl
    · simp only
      split <;> [rfl; (split <;> rfl)]

theorem filesame_eq (fs : FS) (p1 p2 : Path) (f1 f2 : File)
    (h1 : fs.openR p1 = some f1) (h2 : fs.openR p2 = some f2) :
    (filesame fs p1 p2).1 = .ok (if f1.data = f2.data then 1 else 0) := by
  rw [filesame_fst, datafromfile_fst, datafromfile_fst]
  rw [h1, h2]
  simp only [Option.map_some']
  by_cases h0 : f1.data.length = 0 ∧ f2.data.length = 0
  · have e1 : f1.data = [] := List.length_eq_zero.1 h0.1
    have e2 : f2.data = [] := List.length_eq_zero.1 h0.2
    simp [e1, e2]
  · rw [if_neg h0]
    by_cases hl : f1.data.length = f2.data.length
    · rw [if_neg (not_not.2 hl), sameBytes_eq _ _ hl]
    · have hne : f1.data ≠ f2.data := fun e => hl (e ▸ rfl)
      rw [if_pos hl, if_neg hne]

theorem append_T_ne (p : Path) : p ++ ascii "T" ≠ p := by
  intro h
  have := congrArg List.length h
  simp [ascii] at this

theorem flush_file_self (fs : FS) (p : Path) (out : List Byte) (t : Time)
    (h : fs.files p = some ⟨[], t⟩) :
    ∃ f, (fs.flush p out).files p = some f ∧ f.data = out := by
  unfold FS.flush
  rw [h]
  by_cases ho : out = []
  · exact ⟨⟨[], t⟩, by simp [ho, h], by simp [ho]⟩
  · exact ⟨⟨out, fs.clock fs.tick⟩, by simp [ho, FS.setFile], rfl⟩

theorem filesame_error (fs : FS) (p1 p2 : Path) (e : Exit)
    (h : (filesame fs p1 p2).1 = .error e) : e ≠ .ok := by
  rw [filesame_fst] at h
  split at h
  · cases h; simp
  · split at h
    · cases h; simp
    · split at h
      · cases h
      · split at h <;> cases h

/-- The commit step in terms of the result of `filesame` and of the number of
descriptors it leaves open. -/
theorem commitRecord_eq (stack : Time) (st : SplitState) (n : Path) (b : List Byte) :
    commitRecord stack st n b =
      match (filesame (st.fs.flush (n ++ ascii "T") b) n (n ++ ascii "T")).1 with
      | .error e => (e, { st with fs := st.fs.flush (n ++ ascii "T") b,
                                  leaked := st.leaked + commitLeak st n b })
      | .ok same =>
        if same = 0 then
          if 0 ≤ st.fno - 1 ∧ st.fno - 1 < st.times.length then
            (.ok, { fs := ((st.fs.flush (n ++ ascii "T") b).unlink n).rename (n ++ ascii "T") n,
                    times := st.times.set (st.fno - 1).toNat
                      (filetime (((st.fs.flush (n ++ ascii "T") b).unlink n).rename
                        (n ++ ascii "T") n) n stack),
                    fno := st.fno + 1,
                    replaced := st.replaced ++ [(n, st.fno - 1)],
                    leaked := st.leaked + commitLeak st n b })
          else (.undefinedBehaviour,
                { st with fs := ((st.fs.flush (n ++ ascii "T") b).unlink n).rename
                            (n ++ ascii "T") n,
                          replaced := st.replaced ++ [(n, st.fno - 1)],
                          leaked := st.leaked + commitLeak st n b })
        else (.ok, { st with fs := (st.fs.flush (n ++ ascii "T") b).unlink (n ++ ascii "T"),
                             fno := st.fno + 1,
                             leaked := st.leaked + commitLeak st n b }) := by
  unfold commitRecord commitLeak
  simp only
  rcases filesame (st.fs.flush (n ++ ascii "T") b) n (n ++ ascii "T") with ⟨r, k⟩
  cases r <;> rfl

theorem commitRecord_fno (stack : Time) (st st1 : SplitState) (p : Path) (b : List Byte)
    (h : commitRecord stack st p b = (.ok, st1)) : st1.fno = st.fno + 1 := by
  rw [commitRecord_eq] at h
  split at h
  · rename_i e he
    simp only [Prod.mk.injEq] at h
    exact absurd h.1 (filesame_error _ _ _ e he)
  · split at h
    · split at h
      · simp only [Prod.mk.injEq, true_and] at h
        rw [← h]
      · simp at h
    · simp only [Prod.mk.injEq, true_and] at h
      rw [← h]

theorem fgetsLines_line (size : Nat) (cur body rest : List Byte) (hnl : (10 : Byte) ∉ body)
    (hlen : cur.length + body.length + 1 < size) :
    fgetsLines size cur (body ++ 10 :: rest) = (cur ++ body ++ [10]) :: fgetsLines size [] rest := by
  induction body generalizing cur with
  | nil =>
    simp [fgetsLines]
  | cons c body ih =>
    have hc : c ≠ 10 := fun e => hnl (e ▸ List.mem_cons_self _ _)
    have hb : (10 : Byte) ∉ body := fun e => hnl (List.mem_cons_of_mem _ e)
    simp only [List.length_cons] at hlen
    have hsz : ¬ (c = 10 ∨ cur.length + 2 = size) := by
      rintro (h | h)
      · exact hc h
      · omega
    show fgetsLines size cur (c :: (body ++ 10 :: rest)) = _
    rw [fgetsLines, if_neg hsz,
      ih (cur ++ [c]) hb (by simp only [List.length_append, List.length_singleton]; omega)]
    simp [List.append_assoc]

theorem filesame_ok (fs : FS) (p1 p2 : Path) (v : Int) (h : (filesame fs p1 p2).1 = .ok v) :
    ∃ f1 f2, fs.openR p1 = some f1 ∧ fs.openR p2 = some f2 ∧
      v = if f1.data = f2.data then 1 else 0 := by
  cases h1 : fs.openR p1 with
  | none =>
    rw [filesame_fst, datafromfile_fst, h1] at h
    cases h
  | some f1 =>
    cases h2 : fs.openR p2 with
    | none =>
      rw [filesame_fst, datafromfile_fst, datafromfile_fst, h1, h2] at h
      cases h
    | some f2 =>
      rw [filesame_eq fs p1 p2 f1 f2 h1 h2] at h
      cases h
      exact ⟨f1, f2, rfl, rfl, rfl⟩

theorem flush_file_data (fs : FS) (p : Path) (out : List Byte) (g : File)
    (h : (fs.flush p out).files p = some g) :
    ∃ g0, fs.files p = some g0 ∧ g.data = g0.data ++ out := by
  unfold FS.flush at h
  cases h0 : fs.files p with
  | none =>
    rw [h0] at h
    simp only at h
    rw [h0] at h
    cases h
  | some g0 =>
    rw [h0] at h
    simp only at h
    by_cases ho : out = []
    · rw [if_pos ho, h0] at h
      cases h
      exact ⟨g, rfl, by simp [ho]⟩
    · rw [if_neg ho] at h
      simp only [FS.setFile, if_true, Option.some.injEq] at h
      subst h
      exact ⟨g0, rfl, rfl⟩

/-- The three ways `commitRecord` ends: with the fatal error of `filesame`;
after replacing the real file; after removing the temporary file. -/
theorem commitRecord_cases (stack : Time) (st : SplitState) (n : Path) (b : List Byte) :
    (∃ e, e ≠ Exit.ok ∧
      commitRecord stack st n b = (e, { st with fs := st.fs.flush (n ++ ascii "T") b,
                                                leaked := st.leaked + commitLeak st n b })) ∨
    (∃ real g e st1, (st.fs.flush (n ++ ascii "T") b).openR n = some real ∧
      (st.fs.flush (n ++ ascii "T") b).openR (n ++ ascii "T") = some g ∧ real.data ≠ g.data ∧
      commitRecord stack st n b = (e, st1) ∧
      st1.fs = ((((st.fs.flush (n ++ ascii "T") b).unlink n).setFile (n ++ ascii "T") none).setFile
        n (some g)) ∧
      st1.replaced = st.replaced ++ [(n, st.fno - 1)]) ∨
    (∃ real g, (st.fs.flush (n ++ ascii "T") b).openR n = some real ∧
      (st.fs.flush (n ++ ascii "T") b).openR (n ++ ascii "T") = some g ∧ real.data = g.data ∧
      commitRecord stack st n b =
        (.ok, { st with fs := (st.fs.flush (n ++ ascii "T") b).unlink (n ++ ascii "T"),
                        fno := st.fno + 1,
                        leaked := st.leaked + commitLeak st n b })) := by
  cases hs : (filesame (st.fs.flush (n ++ ascii "T") b) n (n ++ ascii "T")).1 with
  | error e =>
    left
    refine ⟨e, filesame_error _ _ _ e hs, ?_⟩
    rw [commitRecord_eq, hs]
  | ok v =>
    obtain ⟨real, g, hr, hg, hv⟩ := filesame_ok _ _ _ v hs
    by_cases hd : real.data = g.data
    · right; right
      refine ⟨real, g, hr, hg, hd, ?_⟩
      rw [commitRecord_eq, hs, hv, if_pos hd]
      simp
    · right; left
      have hren : ((st.fs.flush (n ++ ascii "T") b).unlink n).rename (n ++ ascii "T") n =
          ((((st.fs.flush (n ++ ascii "T") b).unlink n).setFile (n ++ ascii "T") none).setFile
            n (some g)) := by
        unfold FS.rename
        have : ((st.fs.flush (n ++ ascii "T") b).unlink n).files (n ++ ascii "T") = some g := by
          simp only [FS.unlink, FS.setFile, if_neg (append_T_ne n)]
          exact hg
        rw [this]
      rw [commitRecord_eq, hs, hv, if_neg hd]
      simp only [if_true]
      split
      · exact ⟨real, g, _, _, hr, hg, hd, rfl, hren, rfl⟩
      · exact ⟨real, g, _, _, hr, hg, hd, rfl, hren, rfl⟩

theorem commitRecord_files_other (stack : Time) (st : SplitState) (n : Path) (b : List Byte)
    (q : Path) (h1 : q ≠ n) (h2 : q ≠ n ++ ascii "T") :
    (commitRecord stack st n b).2.fs.files q = st.fs.files q := by
  have hfl : (st.fs.flush (n ++ ascii "T") b).files q = st.fs.files q :=
    flush_files_other _ _ _ _ h2
  rcases commitRecord_cases stack st n b with ⟨e, _, hc⟩ | ⟨real, g, e, st1, _, _, _, hc, hfs, _⟩ |
      ⟨real, g, _, _, _, hc⟩
  · rw [hc]; exact hfl
  · rw [hc]
    simp only
    rw [hfs]
    simp [FS.setFile, FS.unlink, h1, h2, hfl]
  · rw [hc]
    simp [FS.setFile, FS.unlink, h2, hfl]

theorem commitRecord_ok_temp (stack : Time) (st st1 : SplitState) (n : Path) (b : List Byte)
    (h : commitRecord stack st n b = (.ok, st1)) : st1.fs.files (n ++ ascii "T") = none := by
  rcases commitRecord_cases stack st n b with ⟨e, he, hc⟩ | ⟨real, g, e, st2, _, _, _, hc, hfs, _⟩ |
      ⟨real, g, _, _, _, hc⟩
  · rw [hc] at h
    cases h
    exact absurd rfl he
  · rw [hc] at h
    cases h
    rw [hfs]
    simp only [FS.setFile, if_neg (append_T_ne n), if_true]
  · rw [hc] at h
    cases h
    simp [FS.setFile, FS.unlink]

theorem commitRecord_ok_real (stack : Time) (st st1 : SplitState) (n : Path) (b : List Byte)
    (h : commitRecord stack st n b = (.ok, st1))
    (hT : ∀ g, st.fs.files (n ++ ascii "T") = some g → g.data = []) :
    ∃ f, st1.fs.files n = some f ∧ f.data = b := by
  have hg : ∀ g, (st.fs.flush (n ++ ascii "T") b).openR (n ++ ascii "T") = some g → g.data = b := by
    intro g hg
    obtain ⟨g0, h0, hd⟩ := flush_file_data _ _ _ g hg
    rw [hd, hT g0 h0]
    rfl
  rcases commitRecord_cases stack st n b with ⟨e, he, hc⟩ |
      ⟨real, g, e, st2, _, hg2, _, hc, hfs, _⟩ | ⟨real, g, hr, hg2, hd, hc⟩
  · rw [hc] at h
    cases h
    exact absurd rfl he
  · rw [hc] at h
    cases h
    rw [hfs]
    exact ⟨g, by simp [FS.setFile], hg g hg2⟩
  · rw [hc] at h
    cases h
    refine ⟨real, ?_, by rw [hd]; exact hg g hg2⟩
    simp only [FS.unlink, FS.setFile, if_neg (Ne.symm (append_T_ne n))]
    exact hr

theorem commitRecord_same (stack : Time) (st : SplitState) (n : Path) (b : List Byte)
    (hn : ∀ f, st.fs.files n = some f → f.data = b)
    (hT : ∀ g, st.fs.files (n ++ ascii "T") = some g → g.data = []) :
    (commitRecord stack st n b).2.replaced = st.replaced ∧
    (commitRecord stack st n b).2.times = st.times ∧
    (commitRecord stack st n b).2.fs.files n = st.fs.files n := by
  have hne := append_T_ne n
  have hfl : (st.fs.flush (n ++ ascii "T") b).files n = st.fs.files n :=
    flush_files_other _ _ _ _ (Ne.symm hne)
  rcases commitRecord_cases stack st n b with ⟨e, he, hc⟩ |
      ⟨real, g, e, st2, hr, hg2, hd, hc, hfs, _⟩ | ⟨real, g, hr, hg2, hd, hc⟩
  · rw [hc]
    exact ⟨rfl, rfl, hfl⟩
  · exfalso
    apply hd
    obtain ⟨g0, h0, hgd⟩ := flush_file_data _ _ _ g hg2
    rw [hgd, hT g0 h0]
    have : st.fs.files n = some real := by rw [← hfl]; exact hr
    rw [hn real this]
    rfl
  · rw [hc]
    refine ⟨rfl, rfl, ?_⟩
    simp only [FS.unlink, FS.setFile, if_neg (Ne.symm hne)]
    exact hfl

theorem splitLoop_start_cases (stack : Time) (nfiles : Int) (st : SplitState) (buf : List Byte)
    (rest : List (List Byte)) (hs : isStart buf = true) :
    (∃ e, e ≠ Exit.ok ∧ splitLoop stack nfiles st .searching (buf :: rest) = (e, st) ∧
      ∀ n idx tot, parseStart buf = .ok (n, idx, tot) →
        idx ≠ st.fno ∨ tot ≠ nfiles ∨ 4096 < n.length + 2 ∨
          st.fs.fopenW (n ++ ascii "T") = none) ∨
    (∃ n tot fs1, parseStart buf = .ok (n, st.fno, tot) ∧ tot = nfiles ∧
      st.fs.fopenW (n ++ ascii "T") = some fs1 ∧
      splitLoop stack nfiles st .searching (buf :: rest) =
        splitLoop stack nfiles { st with fs := fs1 } (.inBody n []) rest) := by
  rw [splitLoop, if_pos hs]
  cases hp : parseStart buf with
  | error k =>
    left
    exact ⟨_, by simp, rfl, by intro n idx tot h; cases h⟩
  | ok r =>
    obtain ⟨n, idx, tot⟩ := r
    simp only
    by_cases h1 : idx ≠ st.fno
    · left
      rw [if_pos h1]
      refine ⟨_, by simp, rfl, ?_⟩
      intro n' idx' tot' h
      cases h
      exact Or.inl h1
    · rw [if_neg h1]
      by_cases h2 : tot ≠ nfiles
      · left
        rw [if_pos h2]
        refine ⟨_, by simp, rfl, ?_⟩
        intro n' idx' tot' h
        cases h
        exact Or.inr (Or.inl h2)
      · rw [if_neg h2]
        by_cases h3 : 4096 < n.length + 2
        · left
          rw [if_pos h3]
          refine ⟨_, by simp, rfl, ?_⟩
          intro n' idx' tot' h
          cases h
          exact Or.inr (Or.inr (Or.inl h3))
        · rw [if_neg h3]
          cases hf : st.fs.fopenW (n ++ ascii "T") with
          | none =>
            left
            refine ⟨_, by simp, rfl, ?_⟩
            intro n' idx' tot' h
            cases h
            exact Or.inr (Or.inr (Or.inr hf))
          | some fs1 =>
            right
            have e1 : idx = st.fno := not_not.1 h1
            subst e1
            exact ⟨n, tot, fs1, rfl, not_not.1 h2, hf, rfl⟩

theorem splitLoop_end_cases (stack : Time) (nfiles : Int) (st : SplitState) (n : Path)
    (body buf : List Byte) (rest : List (List Byte)) (he : isEnd buf = true) :
    (∃ e s1, e ≠ Exit.ok ∧ commitRecord stack st n body = (e, s1) ∧
      splitLoop stack nfiles st (.inBody n body) (buf :: rest) = (e, s1)) ∨
    (∃ s1, commitRecord stack st n body = (.ok, s1) ∧
      splitLoop stack nfiles st (.inBody n body) (buf :: rest) =
        splitLoop stack nfiles s1 .searching rest) := by
  rw [splitLoop, if_pos he]
  cases hc : commitRecord stack st n body with
  | mk e s1 =>
    by_cases hok : e = Exit.ok
    · subst hok
      right
      exact ⟨s1, rfl, rfl⟩
    · left
      refine ⟨e, s1, hok, rfl, ?_⟩
      cases e <;> first | rfl | exact absurd rfl hok

theorem docRecords_inBody_head (n : Path) (body : List Byte) (lines : List (List Byte)) :
    ∃ b recs, docRecords (.inBody n body) lines = (n, b) :: recs := by
  induction lines generalizing body with
  | nil => exact ⟨body, [], rfl⟩
  | cons buf rest ih =>
    by_cases he : isEnd buf = true
    · exact ⟨body, docRecords .searching rest, by rw [docRecords, if_pos he]⟩
    · obtain ⟨b, recs, h⟩ := ih (body ++ cstr buf)
      exact ⟨b, recs, by rw [docRecords, if_neg he, h]⟩

/-- Frame of a scan that ends normally: a path that is not the name of a
record met by the scan either keeps its file or ends without one, and the
temporary output held open at the start ends without one. -/
theorem splitLoop_ok_frame (stack : Time) (nfiles : Int) (lines : List (List Byte)) :
    ∀ (m : Mode) (st st1 : SplitState), splitLoop stack nfiles st m lines = (.ok, st1) →
      ∀ q, q ∉ (docRecords m lines).map Prod.fst →
        st1.fs.files q = none ∨ (¬ opened m q ∧ st1.fs.files q = st.fs.files q) := by
  induction lines with
  | nil =>
    intro m st st1 h q hq
    cases m with
    | searching =>
      rw [splitLoop] at h
      cases h
      exact Or.inr ⟨fun hc => hc, rfl⟩
    | inBody n body =>
      rw [splitLoop] at h
      have hqn : q ≠ n := by
        intro e
        apply hq
        simp [docRecords, e]
      by_cases hT : q = n ++ ascii "T"
      · left
        rw [hT]
        exact commitRecord_ok_temp stack st st1 n body h
      · right
        refine ⟨hT, ?_⟩
        have := commitRecord_files_other stack st n body q hqn hT
        rw [h] at this
        exact this
  | cons buf rest ih =>
    intro m st st1 h q hq
    cases m with
    | searching =>
      by_cases hs : isStart buf = true
      · rcases splitLoop_start_cases stack nfiles st buf rest hs with
          ⟨e, he, hr, _⟩ | ⟨n, tot, fs1, hp, _, hf, hr⟩
        · rw [hr] at h
          cases h
          exact absurd rfl he
        · rw [hr] at h
          have hdoc : docRecords .searching (buf :: rest) = docRecords (.inBody n []) rest := by
            rw [docRecords, if_pos hs, hp]
          rw [hdoc] at hq
          obtain ⟨_, _, hother, _⟩ := fopenW_files st.fs fs1 _ hf
          rcases ih (.inBody n []) _ st1 h q hq with h1 | ⟨h1, h2⟩
          · exact Or.inl h1
          · right
            refine ⟨fun hc => hc, ?_⟩
            rw [h2]
            exact hother q h1
      · rw [splitLoop, if_neg hs] at h
        have hdoc : docRecords .searching (buf :: rest) = docRecords .searching rest := by
          rw [docRecords, if_neg hs]
        rw [hdoc] at hq
        exact ih .searching st st1 h q hq
    | inBody n body =>
      by_cases he : isEnd buf = true
      · have hdoc : docRecords (.inBody n body) (buf :: rest) =
            (n, body) :: docRecords .searching rest := by
          rw [docRecords, if_pos he]
        rw [hdoc] at hq
        simp only [List.map_cons, List.mem_cons, not_or] at hq
        rcases splitLoop_end_cases stack nfiles st n body buf rest he with
          ⟨e, s1, hne, _, hr⟩ | ⟨s1, hc, hr⟩
        · rw [hr] at h
          cases h
          exact absurd rfl hne
        · rw [hr] at h
          rcases ih .searching s1 st1 h q hq.2 with h1 | ⟨_, h2⟩
          · exact Or.inl h1
          · by_cases hT : q = n ++ ascii "T"
            · left
              rw [h2, hT]
              exact commitRecord_ok_temp stack st s1 n body hc
            · right
              refine ⟨hT, ?_⟩
              rw [h2]
              have := commitRecord_files_other stack st n body q hq.1 hT
              rw [hc] at this
              exact this
      · rw [splitLoop, if_neg he] at h
        have hdoc : docRecords (.inBody n body) (buf :: rest) =
            docRecords (.inBody n (body ++ cstr buf)) rest := by
          rw [docRecords, if_neg he]
        rw [hdoc] at hq
        exact ih (.inBody n (body ++ cstr buf)) st st1 h q hq

/-- After a scan that ends normally over records with pairwise distinct names,
every record whose file still exists is on disk with the body of the record. -/
theorem splitLoop_ok_onDisk (stack : Time) (nfiles : Int) (lines : List (List Byte)) :
    ∀ (m : Mode) (st st1 : SplitState), splitLoop stack nfiles st m lines = (.ok, st1) →
      ((docRecords m lines).map Prod.fst).Nodup →
      (∀ n body, m = .inBody n body → ∀ g, st.fs.files (n ++ ascii "T") = some g → g.data = []) →
      recordsOnDisk st1.fs (docRecords m lines) := by
  induction lines with
  | nil =>
    intro m st st1 h _ hT
    cases m with
    | searching =>
      intro pc hpc
      simp [docRecords] at hpc
    | inBody n body =>
      rw [splitLoop] at h
      obtain ⟨f, hf, hd⟩ := commitRecord_ok_real stack st st1 n body h (hT n body rfl)
      intro pc hpc f' hf'
      simp only [docRecords, List.mem_singleton] at hpc
      subst hpc
      simp only at hf'
      rw [hf] at hf'
      cases hf'
      exact hd
  | cons buf rest ih =>
    intro m st st1 h hnd hT
    cases m with
    | searching =>
      by_cases hs : isStart buf = true
      · rcases splitLoop_start_cases stack nfiles st buf rest hs with
          ⟨e, he, hr, _⟩ | ⟨n, tot, fs1, hp, _, hf, hr⟩
        · rw [hr] at h
          cases h
          exact absurd rfl he
        · rw [hr] at h
          have hdoc : docRecords .searching (buf :: rest) = docRecords (.inBody n []) rest := by
            rw [docRecords, if_pos hs, hp]
          rw [hdoc] at hnd ⊢
          obtain ⟨_, hfile, _, _⟩ := fopenW_files st.fs fs1 _ hf
          refine ih (.inBody n []) _ st1 h hnd ?_
          intro n' body' hm g hg
          cases hm
          simp only at hg
          rw [hfile] at hg
          cases hg
          rfl
      · rw [splitLoop, if_neg hs] at h
        have hdoc : docRecords .searching (buf :: rest) = docRecords .searching rest := by
          rw [docRecords, if_neg hs]
        rw [hdoc] at hnd ⊢
        exact ih .searching st st1 h hnd (by intro n body hm; cases hm)
    | inBody n body =>
      by_cases he : isEnd buf = true
      · have hdoc : docRecords (.inBody n body) (buf :: rest) =
            (n, body) :: docRecords .searching rest := by
          rw [docRecords, if_pos he]
        rw [hdoc] at hnd ⊢
        simp only [List.map_cons, List.nodup_cons] at hnd
        rcases splitLoop_end_cases stack nfiles st n body buf rest he with
          ⟨e, s1, hne, _, hr⟩ | ⟨s1, hc, hr⟩
        · rw [hr] at h
          cases h
          exact absurd rfl hne
        · rw [hr] at h
          have hrest := ih .searching s1 st1 h hnd.2 (by intro n' body' hm; cases hm)
          obtain ⟨f, hf, hd⟩ := commitRecord_ok_real stack st s1 n body hc (hT n body rfl)
          intro pc hpc f' hf'
          rcases List.mem_cons.1 hpc with rfl | hpc'
          · simp only at hf' ⊢
            rcases splitLoop_ok_frame stack nfiles rest .searching s1 st1 h n hnd.1 with
              h1 | ⟨_, h2⟩
            · rw [h1] at hf'
              cases hf'
            · rw [h2, hf] at hf'
              cases hf'
              exact hd
          · exact hrest pc hpc' f' hf'
      · rw [splitLoop, if_neg he] at h
        have hdoc : docRecords (.inBody n body) (buf :: rest) =
            docRecords (.inBody n (body ++ cstr buf)) rest := by
          rw [docRecords, if_neg he]
        rw [hdoc] at hnd ⊢
        refine ih (.inBody n (body ++ cstr buf)) st st1 h hnd ?_
        intro n' body' hm g hg
        cases hm
        exact hT n body rfl g hg

/-- A scan over records that are already on disk with their bodies performs no
real write: it replaces no file, changes no table entry, and leaves every path
that is not the temporary output of a record as it was. -/
theorem splitLoop_no_writes (stack : Time) (nfiles : Int) (lines : List (List Byte)) :
    ∀ (m : Mode) (st : SplitState),
      (∀ pc ∈ docRecords m lines, ¬ opened m pc.1 →
        ∀ f, st.fs.files pc.1 = some f → f.data = pc.2) →
      (∀ n body, m = .inBody n body → ∀ g, st.fs.files (n ++ ascii "T") = some g → g.data = []) →
      (splitLoop stack nfiles st m lines).2.replaced = st.replaced ∧
      (splitLoop stack nfiles st m lines).2.times = st.times ∧
      ∀ q, (∀ pc ∈ docRecords m lines, q ≠ pc.1 ++ ascii "T") →
        (splitLoop stack nfiles st m lines).2.fs.files q = st.fs.files q := by
  induction lines with
  | nil =>
    intro m st hinv hT
    cases m with
    | searching =>
      rw [splitLoop]
      exact ⟨rfl, rfl, fun _ _ => rfl⟩
    | inBody n body =>
      rw [splitLoop]
      have hn : ∀ f, st.fs.files n = some f → f.data = body :=
        hinv (n, body) (by simp [docRecords]) (fun hc => append_T_ne n hc.symm)
      obtain ⟨h1, h2, h3⟩ := commitRecord_same stack st n body hn (hT n body rfl)
      refine ⟨h1, h2, ?_⟩
      intro q hq
      have hqT : q ≠ n ++ ascii "T" := hq (n, body) (by simp [docRecords])
      by_cases hqn : q = n
      · rw [hqn]; exact h3
      · exact commitRecord_files_other stack st n body q hqn hqT
  | cons buf rest ih =>
    intro m st hinv hT
    cases m with
    | searching =>
      by_cases hs : isStart buf = true
      · rcases splitLoop_start_cases stack nfiles st buf rest hs with
          ⟨e, he, hr, _⟩ | ⟨n, tot, fs1, hp, _, hf, hr⟩
        · rw [hr]
          exact ⟨rfl, rfl, fun _ _ => rfl⟩
        · have hdoc : docRecords .searching (buf :: rest) = docRecords (.inBody n []) rest := by
            rw [docRecords, if_pos hs, hp]
          rw [hdoc] at hinv ⊢
          rw [hr]
          obtain ⟨_, hfile, hother, _⟩ := fopenW_files st.fs fs1 _ hf
          have hih := ih (.inBody n []) { st with fs := fs1 }
            (by
              intro pc hpc hno f hf'
              have hne : pc.1 ≠ n ++ ascii "T" := hno
              simp only at hf'
              rw [hother pc.1 hne] at hf'
              exact hinv pc hpc (fun hc => hc) f hf')
            (by
              intro n' body' hm g hg
              cases hm
              simp only at hg
              rw [hfile] at hg
              cases hg
              rfl)
          refine ⟨hih.1, hih.2.1, ?_⟩
          intro q hq
          rw [hih.2.2 q hq]
          obtain ⟨b, recs, hhead⟩ := docRecords_inBody_head n [] rest
          exact hother q (hq (n, b) (by rw [hhead]; exact List.mem_cons_self _ _))
      · have hdoc : docRecords .searching (buf :: rest) = docRecords .searching rest := by
          rw [docRecords, if_neg hs]
        rw [hdoc] at hinv ⊢
        rw [splitLoop, if_neg hs]
        exact ih .searching st hinv (by intro n body hm; cases hm)
    | inBody n body =>
      by_cases he : isEnd buf = true
      · have hdoc : docRecords (.inBody n body) (buf :: rest) =
            (n, body) :: docRecords .searching rest := by
          rw [docRecords, if_pos he]
        rw [hdoc] at hinv ⊢
        have hn : ∀ f, st.fs.files n = some f → f.data = body :=
          hinv (n, body) (List.mem_cons_self _ _) (fun hc => append_T_ne n hc.symm)
        obtain ⟨h1, h2, h3⟩ := commitRecord_same stack st n body hn (hT n body rfl)
        have hfr : ∀ q, q ≠ n ++ ascii "T" →
            (commitRecord stack st n body).2.fs.files q = st.fs.files q := by
          intro q hqT
          by_cases hqn : q = n
          · rw [hqn]; exact h3
          · exact commitRecord_files_other stack st n body q hqn hqT
        rcases splitLoop_end_cases stack nfiles st n body buf rest he with
          ⟨e, s1, hne, hc, hr⟩ | ⟨s1, hc, hr⟩
        · rw [hr]
          rw [hc] at h1 h2 hfr
          exact ⟨h1, h2, fun q hq => hfr q (hq (n, body) (List.mem_cons_self _ _))⟩
        · rw [hr]
          rw [hc] at h1 h2 hfr
          simp only at h1 h2 hfr
          have hih := ih .searching s1
            (by
              intro pc hpc _ f hf'
              by_cases hpT : pc.1 = n ++ ascii "T"
              · rw [hpT, commitRecord_ok_temp stack st s1 n body hc] at hf'
                cases hf'
              · rw [hfr pc.1 hpT] at hf'
                exact hinv pc (List.mem_cons_of_mem _ hpc) hpT f hf')
            (by intro n' body' hm; cases hm)
          refine ⟨hih.1.trans h1, hih.2.1.trans h2, ?_⟩
          intro q hq
          rw [hih.2.2 q (fun pc hpc => hq pc (List.mem_cons_of_mem _ hpc))]
          exact hfr q (hq (n, body) (List.mem_cons_self _ _))
      · have hdoc : docRecords (.inBody n body) (buf :: rest) =
            docRecords (.inBody n (body ++ cstr buf)) rest := by
          rw [docRecords, if_neg he]
        rw [hdoc] at hinv ⊢
        rw [splitLoop, if_neg he]
        exact ih (.inBody n (body ++ cstr buf)) st hinv
          (by
            intro n' body' hm g hg
            cases hm
            exact hT n body rfl g hg)

theorem flush_wdeny (fs : FS) (p : Path) (out : List Byte) :
    (fs.flush p out).wdeny = fs.wdeny := by
  unfold FS.flush
  cases fs.files p with
  | none => rfl
  | some f =>
    by_cases ho : out = []
    · simp [ho]
    · simp [ho, FS.setFile]

theorem snapshotLoop_const (mf : Path) (d : List Byte) (left : Nat) :
    snapshotLoop mf (fun _ => some d) (left + 1) = .ok d := by
  rw [snapshotLoop]
  simp [datasame_eq]

theorem snapshotCalls_const (d : List Byte) (left : Nat) :
    snapshotCalls (fun _ => some d) (left + 1) = 2 := by
  rw [snapshotCalls]
  simp [datasame_eq]

/-- The run of `split` once the snapshot loop has accepted `doc`, which it does
in its first round when no other process changes the merged document. -/
theorem split_eq (stack : Time) (mf mt : Path) (nfiles : Int) (times : List Time) (fs : FS)
    (doc : List Byte) (hd : (datafromfile fs mf).1 = some doc) :
    split stack mf mt nfiles times fs =
      match (if doc.length > 0 then datatofile fs mt doc else some fs) with
      | none => (.undefinedBehaviour, ⟨fs, times, 1, [], 2 * (datafromfile fs mf).2⟩)
      | some fs1 =>
        match fs1.openR mf with
        | none =>
          (.errorexit "split: can't open input file" (some mf),
            ⟨fs1, times, 1, [], 2 * (datafromfile fs mf).2⟩)
        | some inf =>
          match splitLoop stack nfiles ⟨fs1, times, 1, [], 2 * (datafromfile fs mf).2⟩ .searching
              (fgetsLines MAXTEXTLINE [] inf.data) with
          | (.ok, st) => (.ok, { st with fs := st.fs.unlink mt })
          | r => r := by
  unfold split
  simp only
  rw [hd, snapshotLoop_const mf doc 19, snapshotCalls_const doc 19]

/-- On a file system where the merged document reads `doc`, `split` either
stops on the unchecked `fopen` of `datatofile`, or runs the scan over the
buffers of `doc` from a file system that differs from the given one at most at
`mergetempname`, and removes `mergetempname` when the scan ends normally. -/
theorem split_cases (stack : Time) (mf mt : Path) (nfiles : Int) (times : List Time) (fs : FS)
    (doc : List Byte) (hd : (datafromfile fs mf).1 = some doc) :
    (fs.wdeny mt = true ∧
      split stack mf mt nfiles times fs = (.undefinedBehaviour, ⟨fs, times, 1, [], 2 * (datafromfile fs mf).2⟩)) ∨
    ∃ fs1, (∀ q, q ≠ mt → fs1.files q = fs.files q) ∧ fs1.wdeny = fs.wdeny ∧
      (∀ st, splitLoop stack nfiles ⟨fs1, times, 1, [], 2 * (datafromfile fs mf).2⟩ .searching
          (fgetsLines MAXTEXTLINE [] doc) = (.ok, st) →
        split stack mf mt nfiles times fs = (.ok, { st with fs := st.fs.unlink mt })) ∧
      (∀ e st, e ≠ Exit.ok → splitLoop stack nfiles ⟨fs1, times, 1, [], 2 * (datafromfile fs mf).2⟩ .searching
          (fgetsLines MAXTEXTLINE [] doc) = (e, st) →
        split stack mf mt nfiles times fs = (e, st)) := by
  have hf : ∃ f, fs.files mf = some f ∧ f.data = doc := by
    rw [datafromfile_fst] at hd
    unfold FS.openR at hd
    cases h : fs.files mf with
    | none => rw [h] at hd; cases hd
    | some f =>
      rw [h] at hd
      simp only [Option.map_some', Option.some.injEq] at hd
      exact ⟨f, rfl, hd⟩
  obtain ⟨f, hf, hfd⟩ := hf
  have hsplit := split_eq stack mf mt nfiles times fs doc hd
  have key : ∀ fs1 inf, fs1.openR mf = some inf → inf.data = doc →
      (∀ st, splitLoop stack nfiles ⟨fs1, times, 1, [], 2 * (datafromfile fs mf).2⟩ .searching
          (fgetsLines MAXTEXTLINE [] doc) = (.ok, st) →
        (match splitLoop stack nfiles ⟨fs1, times, 1, [], 2 * (datafromfile fs mf).2⟩ .searching
            (fgetsLines MAXTEXTLINE [] inf.data) with
          | (.ok, st) => ((.ok, { st with fs := st.fs.unlink mt }) : Exit × SplitState)
          | r => r) = (.ok, { st with fs := st.fs.unlink mt })) ∧
      (∀ e st, e ≠ Exit.ok → splitLoop stack nfiles ⟨fs1, times, 1, [], 2 * (datafromfile fs mf).2⟩ .searching
          (fgetsLines MAXTEXTLINE [] doc) = (e, st) →
        (match splitLoop stack nfiles ⟨fs1, times, 1, [], 2 * (datafromfile fs mf).2⟩ .searching
            (fgetsLines MAXTEXTLINE [] inf.data) with
          | (.ok, st) => ((.ok, { st with fs := st.fs.unlink mt }) : Exit × SplitState)
          | r => r) = (e, st)) := by
    intro fs1 inf _ hdat
    rw [hdat]
    constructor
    · intro st h
      rw [h]
    · intro e st hne h
      rw [h]
      cases e <;> first | rfl | exact absurd rfl hne
  by_cases hlen : doc.length > 0
  · cases hw : fs.fopenW mt with
    | none =>
      left
      refine ⟨?_, ?_⟩
      · unfold FS.fopenW at hw
        by_cases hd : fs.wdeny mt = true
        · exact hd
        · rw [if_neg hd] at hw
          cases hw
      · rw [hsplit]
        simp only [hlen, if_true, datatofile, hw, Option.map_none']
    | some fs0 =>
      right
      obtain ⟨_, hfile, hother, hwd⟩ := fopenW_files fs fs0 mt hw
      have hopen : ∃ inf, (fs0.flush mt doc).openR mf = some inf ∧ inf.data = doc := by
        by_cases hm : mf = mt
        · subst hm
          obtain ⟨g, hg, hgd⟩ := flush_file_self fs0 mf doc _ hfile
          exact ⟨g, hg, hgd⟩
        · refine ⟨f, ?_, hfd⟩
          show (fs0.flush mt doc).files mf = some f
          rw [flush_files_other _ _ _ _ hm, hother mf hm]
          exact hf
      obtain ⟨inf, hinf, hinfd⟩ := hopen
      refine ⟨fs0.flush mt doc, ?_, ?_, ?_, ?_⟩
      · intro q hq
        rw [flush_files_other _ _ _ _ hq, hother q hq]
      · rw [flush_wdeny, hwd]
      · intro st h
        rw [hsplit]
        simp only [hlen, if_true, datatofile, hw, Option.map_some', hinf]
        exact (key _ inf hinf hinfd).1 st h
      · intro e st hne h
        rw [hsplit]
        simp only [hlen, if_true, datatofile, hw, Option.map_some', hinf]
        exact (key _ inf hinf hinfd).2 e st hne h
  · right
    refine ⟨fs, fun _ _ => rfl, rfl, ?_, ?_⟩
    · intro st h
      rw [hsplit]
      simp only [hlen, if_false]
      rw [show fs.openR mf = some f from hf]
      exact (key fs f hf hfd).1 st h
    · intro e st hne h
      rw [hsplit]
      simp only [hlen, if_false]
      rw [show fs.openR mf = some f from hf]
      exact (key fs f hf hfd).2 e st hne h

theorem fgetsLines_nil_nil (size : Nat) : fgetsLines size [] [] = [] := by
  simp [fgetsLines]

theorem fgetsLines_newline_append (size : Nat) (c cur rest : List Byte) :
    fgetsLines size cur (c ++ 10 :: rest) =
      fgetsLines size cur (c ++ [10]) ++ fgetsLines size [] rest := by
  induction c generalizing cur with
  | nil =>
    simp [fgetsLines]
  | cons x c ih =>
    show fgetsLines size cur (x :: (c ++ 10 :: rest)) =
      fgetsLines size cur (x :: (c ++ [10])) ++ fgetsLines size [] rest
    rw [fgetsLines, fgetsLines]
    by_cases h : x = 10 ∨ cur.length + 2 = size
    · rw [if_pos h, if_pos h, ih []]
      rfl
    · rw [if_neg h, if_neg h, ih (cur ++ [x])]

theorem endsWithNewline_cases (c : List Byte) (h : endsWithNewline c) :
    c = [] ∨ ∃ c1, c = c1 ++ [10] := by
  rcases h with h | h
  · exact Or.inl h
  · exact Or.inr ⟨c.dropLast, (List.dropLast_append_getLast? 10 (by simp [h])).symm⟩

theorem fgetsLines_content_append (size : Nat) (c rest : List Byte) (h : endsWithNewline c) :
    fgetsLines size [] (c ++ rest) = fgetsLines size [] c ++ fgetsLines size [] rest := by
  rcases endsWithNewline_cases c h with rfl | ⟨c1, rfl⟩
  · simp [fgetsLines_nil_nil]
  · rw [List.append_assoc]
    exact fgetsLines_newline_append size c1 [] rest

theorem fgetsLines_join_cstr (size : Nat) (c cur : List Byte)
    (h0 : (0 : Byte) ∉ cur ++ c) :
    ((fgetsLines size cur c).map cstr).flatten = cur ++ c := by
  induction c generalizing cur with
  | nil =>
    rw [fgetsLines]
    by_cases hc : cur = []
    · simp [hc]
    · rw [if_neg hc]
      simp only [List.append_nil] at h0
      simp [cstr_eq_self cur h0]
  | cons x c ih =>
    rw [fgetsLines]
    have h1 : (0 : Byte) ∉ cur ++ [x] := by
      intro hm
      apply h0
      rcases List.mem_append.1 hm with h | h
      · exact List.mem_append_left _ h
      · exact List.mem_append_right _ (by
          rw [List.mem_singleton] at h
          rw [h]
          exact List.mem_cons_self _ _)
    have h2 : (0 : Byte) ∉ ([] : List Byte) ++ c := by
      intro hm
      exact h0 (List.mem_append_right _ (List.mem_cons_of_mem _ hm))
    have h3 : (0 : Byte) ∉ (cur ++ [x]) ++ c := by
      intro hm
      apply h0
      simpa [List.append_assoc] using hm
    by_cases h : x = 10 ∨ cur.length + 2 = size
    · rw [if_pos h]
      simp only [List.map_cons, List.flatten_cons]
      rw [ih [] h2, cstr_eq_self _ h1]
      simp
    · rw [if_neg h, ih (cur ++ [x]) h3]
      simp

theorem revDigits_length (fuel n k : Nat) (h : n < 10 ^ (k + 1)) :
    (revDigits fuel n).length ≤ k + 1 := by
  induction fuel generalizing n k with
  | zero => simp [revDigits]
  | succ fuel ih =>
    rw [revDigits]
    by_cases hn : n < 10
    · simp [hn]
    · rw [if_neg hn]
      simp only [List.length_cons, add_le_add_iff_right]
      cases k with
      | zero => simp at h; omega
      | succ k =>
        apply ih
        have : 10 ^ (k + 1 + 1) = 10 * 10 ^ (k + 1) := by ring
        rw [this] at h
        exact Nat.div_lt_of_lt_mul h

theorem fmtd_length (z : Int) (h0 : 0 ≤ z) (h : z < 2 ^ 31) : (fmtd z).length ≤ 10 := by
  unfold fmtd
  rw [if_neg (by omega)]
  rw [List.length_reverse]
  apply revDigits_length _ _ 9
  have : (z.natAbs : Int) = z := Int.natAbs_of_nonneg h0
  have h2 : (z.natAbs : Int) < 2 ^ 31 := by rw [this]; exact h
  have h3 : z.natAbs < 2 ^ 31 := by exact_mod_cast h2
  calc z.natAbs < 2 ^ 31 := h3
    _ ≤ 10 ^ (9 + 1) := by norm_num

theorem startMarker_length (p : Path) (i n : Int) :
    (startMarker p i n).length = p.length + (fmtd i).length + (fmtd n).length + 87 := by
  have h1 : (ascii "// [").length = 4 := by decide
  have h2 : (ascii "] Start Fileno: [").length = 17 := by decide
  have h3 : (ascii ":").length = 1 := by decide
  have h4 : markerTail.length = 65 := by decide
  unfold startMarker
  simp only [List.length_append, h1, h2, h3, h4]
  omega

theorem endMarker_length (p : Path) (i n : Int) :
    (endMarker p i n).length = p.length + (fmtd i).length + (fmtd n).length + 85 := by
  have h1 : (ascii "// [").length = 4 := by decide
  have h2 : (ascii "] End Fileno: [").length = 15 := by decide
  have h3 : (ascii ":").length = 1 := by decide
  have h4 : markerTail.length = 65 := by decide
  unfold endMarker
  simp only [List.length_append, h1, h2, h3, h4]
  omega

theorem fgetsLines_marker (p : Path) (i n : Int) (mid rest : List Byte)
    (hnl : (10 : Byte) ∉ p) (hi : 0 ≤ i) (hn : 0 ≤ n) (hmid : (10 : Byte) ∉ mid)
    (hlen : (ascii "// [" ++ p ++ mid ++ fmtd i ++ ascii ":" ++ fmtd n ++ markerTail).length
      < MAXTEXTLINE) :
    fgetsLines MAXTEXTLINE [] (ascii "// [" ++ p ++ mid ++ fmtd i ++ ascii ":" ++ fmtd n ++
        markerTail ++ rest) =
      (ascii "// [" ++ p ++ mid ++ fmtd i ++ ascii ":" ++ fmtd n ++ markerTail) ::
        fgetsLines MAXTEXTLINE [] rest := by
  have hi10 : (10 : Byte) ∉ fmtd i := fmtd_not_mem i hi 10 (by decide)
  have hn10 : (10 : Byte) ∉ fmtd n := fmtd_not_mem n hn 10 (by decide)
  have htail : markerTail =
      ascii "] ********************************************************** VIP" ++ [10] := by
    decide
  have hbody : (10 : Byte) ∉ ascii "// [" ++ p ++ mid ++ fmtd i ++ ascii ":" ++ fmtd n ++
      ascii "] ********************************************************** VIP" := by
    have h1 : (10 : Byte) ∉ ascii "// [" := by decide
    have h2 : (10 : Byte) ∉ ascii ":" := by decide
    have h3 : (10 : Byte) ∉
        ascii "] ********************************************************** VIP" := by decide
    simp only [List.mem_append, not_or]
    exact ⟨⟨⟨⟨⟨⟨h1, hnl⟩, hmid⟩, hi10⟩, h2⟩, hn10⟩, h3⟩
  have := fgetsLines_line MAXTEXTLINE []
    (ascii "// [" ++ p ++ mid ++ fmtd i ++ ascii ":" ++ fmtd n ++
      ascii "] ********************************************************** VIP") rest hbody
    (by
      rw [htail] at hlen
      simp only [List.length_append, List.length_singleton, List.length_nil] at hlen ⊢
      omega)
  rw [htail]
  simp only [List.append_assoc, List.nil_append, List.singleton_append] at this ⊢
  exact this

/-- The snapshot loop when every read succeeds, `r j` being the bytes of the
`j`-th read: with `left` rounds to go, the pairs `20 - left, ..., 19` remain. -/
theorem snapshotLoop_agree (mf : Path) (r : Nat → List Byte) (left : Nat) (hl : left ≤ 20) (k : Nat)
    (hk0 : 20 - left ≤ k) (hk : k < 20) (hagree : r (2 * k) = r (2 * k + 1))
    (hfirst : ∀ j, 20 - left ≤ j → j < k → r (2 * j) ≠ r (2 * j + 1)) :
    snapshotLoop mf (fun j => some (r j)) left = .ok (r (2 * k)) := by
  induction left with
  | zero => omega
  | succ left ih =>
    rw [snapshotLoop]
    simp only
    rw [datasame_eq]
    have hidx : 19 - left = 20 - (left + 1) := by omega
    by_cases hk' : k = 19 - left
    · subst hk'
      simp [hagree]
    · have hne : r (2 * (19 - left)) ≠ r (2 * (19 - left) + 1) :=
        hfirst (19 - left) (by omega) (by omega)
      simp only [hne, if_false, ne_eq, not_true_eq_false]
      exact ih (by omega) (by omega) (fun j hj1 hj2 => hfirst j (by omega) hj2)

theorem snapshotLoop_disagree (mf : Path) (r : Nat → List Byte) (left : Nat) (hl : left ≤ 20)
    (hall : ∀ j, 20 - left ≤ j → j < 20 → r (2 * j) ≠ r (2 * j + 1)) :
    snapshotLoop mf (fun j => some (r j)) left =
      .error (.errorexit "split: Error geting consitent data" none) := by
  induction left with
  | zero => rw [snapshotLoop]
  | succ left ih =>
    rw [snapshotLoop]
    simp only
    rw [datasame_eq]
    have hne : r (2 * (19 - left)) ≠ r (2 * (19 - left) + 1) :=
      hall (19 - left) (by omega) (by omega)
    simp only [hne, if_false, ne_eq, not_true_eq_false]
    exact ih (by omega) (fun j hj1 hj2 => hall j (by omega) hj2)

theorem snapshotLoop_reads (mf : Path) (reads reads1 : Nat → Option (List Byte)) (left : Nat)
    (hl : left ≤ 20) (h : ∀ j, j < 40 → reads j = reads1 j) :
    snapshotLoop mf reads left = snapshotLoop mf reads1 left := by
  induction left with
  | zero => rw [snapshotLoop, snapshotLoop]
  | succ left ih =>
    rw [snapshotLoop, snapshotLoop, h (2 * (19 - left)) (by omega),
      h (2 * (19 - left) + 1) (by omega), ih (by omega)]

theorem splitLoop_ok_headers (stack : Time) (nfiles : Int) (lines : List (List Byte)) :
    ∀ (m : Mode) (st st1 : SplitState), splitLoop stack nfiles st m lines = (.ok, st1) →
      st1.fno = st.fno + (docRecords m lines).length ∧
      docHeaders m lines =
        headersFrom nfiles (match m with
          | .searching => st.fno
          | .inBody _ _ => st.fno + 1) (recordsAhead m lines) := by
  induction lines with
  | nil =>
    intro m st st1 h
    cases m with
    | searching =>
      rw [splitLoop] at h
      cases h
      simp [docRecords, docHeaders, recordsAhead, headersFrom]
    | inBody n body =>
      rw [splitLoop] at h
      have := commitRecord_fno stack st st1 n body h
      simp [docRecords, docHeaders, recordsAhead, headersFrom, this]
  | cons buf rest ih =>
    intro m st st1 h
    cases m with
    | searching =>
      by_cases hs : isStart buf = true
      · rcases splitLoop_start_cases stack nfiles st buf rest hs with
          ⟨e, he, hr, _⟩ | ⟨n, tot, fs1, hp, htot, hf, hr⟩
        · rw [hr] at h
          cases h
          exact absurd rfl he
        · rw [hr] at h
          obtain ⟨h1, h2⟩ := ih (.inBody n []) _ st1 h
          obtain ⟨b, recs, hhead⟩ := docRecords_inBody_head n [] rest
          have hdoc : docRecords .searching (buf :: rest) = docRecords (.inBody n []) rest := by
            rw [docRecords, if_pos hs, hp]
          have hhd : docHeaders .searching (buf :: rest) =
              (st.fno, tot) :: docHeaders (.inBody n []) rest := by
            rw [docHeaders, if_pos hs, hp]
          simp only at h1 h2
          refine ⟨by rw [hdoc]; exact h1, ?_⟩
          rw [hhd, h2]
          simp only [recordsAhead, hdoc, hhead, List.length_cons, Nat.add_sub_cancel]
          rw [headersFrom, htot]
      · rw [splitLoop, if_neg hs] at h
        have hdoc : docRecords .searching (buf :: rest) = docRecords .searching rest := by
          rw [docRecords, if_neg hs]
        have hhd : docHeaders .searching (buf :: rest) = docHeaders .searching rest := by
          rw [docHeaders, if_neg hs]
        obtain ⟨h1, h2⟩ := ih .searching st st1 h
        simp only [recordsAhead] at h2 ⊢
        rw [hdoc, hhd]
        exact ⟨h1, h2⟩
    | inBody n body =>
      by_cases he : isEnd buf = true
      · have hdoc : docRecords (.inBody n body) (buf :: rest) =
            (n, body) :: docRecords .searching rest := by
          rw [docRecords, if_pos he]
        have hhd : docHeaders (.inBody n body) (buf :: rest) = docHeaders .searching rest := by
          rw [docHeaders, if_pos he]
        rcases splitLoop_end_cases stack nfiles st n body buf rest he with
          ⟨e, s1, hne, _, hr⟩ | ⟨s1, hc, hr⟩
        · rw [hr] at h
          cases h
          exact absurd rfl hne
        · rw [hr] at h
          obtain ⟨h1, h2⟩ := ih .searching s1 st1 h
          have hf := commitRecord_fno stack st s1 n body hc
          simp only [recordsAhead] at h2 ⊢
          rw [hdoc, hhd, h2, hf]
          simp only [List.length_cons, Nat.add_sub_cancel, Nat.cast_add, Nat.cast_one]
          refine ⟨?_, trivial⟩
          rw [h1, hf]
          omega
      · rw [splitLoop, if_neg he] at h
        have hdoc : docRecords (.inBody n body) (buf :: rest) =
            docRecords (.inBody n (body ++ cstr buf)) rest := by
          rw [docRecords, if_neg he]
        have hhd : docHeaders (.inBody n body) (buf :: rest) =
            docHeaders (.inBody n (body ++ cstr buf)) rest := by
          rw [docHeaders, if_neg he]
        obtain ⟨h1, h2⟩ := ih (.inBody n (body ++ cstr buf)) st st1 h
        simp only [recordsAhead] at h2 ⊢
        rw [hdoc, hhd]
        exact ⟨h1, h2⟩

/-- The two ways `commitRecord` returns normally: the temporary output is
removed, or it is renamed into place and the table entry is refreshed. -/
theorem commitRecord_ok_cases (stack : Time) (st s1 : SplitState) (n : Path) (b : List Byte)
    (h : commitRecord stack st n b = (.ok, s1)) :
    (s1 = { st with fs := (st.fs.flush (n ++ ascii "T") b).unlink (n ++ ascii "T"),
                    fno := st.fno + 1,
                    leaked := st.leaked + commitLeak st n b }) ∨
    (∃ g, (st.fs.flush (n ++ ascii "T") b).openR (n ++ ascii "T") = some g ∧
      (0 ≤ st.fno - 1 ∧ st.fno - 1 < st.times.length) ∧
      s1 = { fs := ((((st.fs.flush (n ++ ascii "T") b).unlink n).setFile (n ++ ascii "T")
                none).setFile n (some g)),
             times := st.times.set (st.fno - 1).toNat g.mtime,
             fno := st.fno + 1,
             replaced := st.replaced ++ [(n, st.fno - 1)],
             leaked := st.leaked + commitLeak st n b }) := by
  cases hs : (filesame (st.fs.flush (n ++ ascii "T") b) n (n ++ ascii "T")).1 with
  | error e =>
    exfalso
    rw [commitRecord_eq, hs] at h
    simp only [Prod.mk.injEq] at h
    exact filesame_error _ _ _ e hs h.1
  | ok v =>
    obtain ⟨real, g, hr, hg, hv⟩ := filesame_ok _ _ _ v hs
    by_cases hd : real.data = g.data
    · left
      rw [commitRecord_eq, hs, hv, if_pos hd] at h
      simp only [one_ne_zero, if_false, Prod.mk.injEq, true_and] at h
      exact h.symm
    · right
      have hren : ((st.fs.flush (n ++ ascii "T") b).unlink n).rename (n ++ ascii "T") n =
          ((((st.fs.flush (n ++ ascii "T") b).unlink n).setFile (n ++ ascii "T") none).setFile
            n (some g)) := by
        unfold FS.rename
        have : ((st.fs.flush (n ++ ascii "T") b).unlink n).files (n ++ ascii "T") = some g := by
          simp only [FS.unlink, FS.setFile, if_neg (append_T_ne n)]
          exact hg
        rw [this]
      have hft : filetime ((((st.fs.flush (n ++ ascii "T") b).unlink n).setFile (n ++ ascii "T")
          none).setFile n (some g)) n stack = g.mtime := by
        simp [filetime, FS.openR, FS.setFile]
      rw [commitRecord_eq, hs, hv, if_neg hd] at h
      simp only [if_true] at h
      rw [hren, hft] at h
      by_cases hidx : 0 ≤ st.fno - 1 ∧ st.fno - 1 < st.times.length
      · rw [if_pos hidx] at h
        simp only [Prod.mk.injEq, true_and] at h
        exact ⟨g, hg, hidx, h.symm⟩
      · rw [if_neg hidx] at h
        simp only [Prod.mk.injEq] at h
        exact absurd h.1 (by simp)

theorem inSync_iff_syncAt (fs : FS) (paths : List Path) (times : List Time) :
    inSync fs paths times ↔ syncAt fs paths times := by
  induction paths generalizing times with
  | nil =>
    cases times with
    | nil => simp [inSync, syncAt]
    | cons t times => simp [inSync, syncAt]
  | cons p paths ih =>
    cases times with
    | nil => simp [inSync, syncAt]
    | cons t times =>
      simp only [inSync, ih, syncAt, List.length_cons, add_left_inj]
      constructor
      · rintro ⟨⟨f, hf, ht⟩, hl, hk⟩
        refine ⟨hl, ?_⟩
        intro k q hq
        cases k with
        | zero =>
          simp only [List.getElem?_cons_zero, Option.some.injEq] at hq
          subst hq
          exact ⟨f, hf, by simp [ht]⟩
        | succ k =>
          simp only [List.getElem?_cons_succ] at hq ⊢
          exact hk k q hq
      · rintro ⟨hl, hk⟩
        refine ⟨?_, hl, ?_⟩
        · obtain ⟨f, hf, ht⟩ := hk 0 p (by simp)
          simp only [List.getElem?_cons_zero, Option.some.injEq] at ht
          exact ⟨f, hf, ht⟩
        · intro k q hq
          have := hk (k + 1) q (by simpa using hq)
          simpa using this

theorem filetime_of_file (fs : FS) (p : Path) (stack : Time) (f : File)
    (h : fs.files p = some f) : filetime fs p stack = f.mtime := by
  simp [filetime, FS.openR, h]

theorem timeDiffers_self (t : Time) : timeDiffers t t = false := by
  simp [timeDiffers]

theorem countChanged_inSync (fs : FS) (junk : Nat → Time) (paths : List Path)
    (times : List Time) (h : inSync fs paths times) : countChanged fs junk paths times = 0 := by
  induction paths generalizing times junk with
  | nil =>
    cases times <;> simp [countChanged]
  | cons p paths ih =>
    cases times with
    | nil => simp [countChanged]
    | cons t times =>
      obtain ⟨⟨f, hf, ht⟩, hrest⟩ := h
      rw [countChanged, filetime_of_file fs p _ f hf, ht, timeDiffers_self, ih _ times hrest]
      simp

theorem commitRecord_sync (stack : Time) (st s1 : SplitState) (n : Path) (b : List Byte)
    (paths : List Path) (h : commitRecord stack st n b = (.ok, s1))
    (hk0 : paths[(st.fno - 1).toNat]? = some n) (hnd : paths.Nodup)
    (hT : ∀ a ∈ paths, ∀ c ∈ paths, a ≠ c ++ ascii "T")
    (hs : syncAt st.fs paths st.times) : syncAt s1.fs paths s1.times := by
  have hn : n ∈ paths := List.getElem?_mem hk0
  obtain ⟨hlen, hsync⟩ := hs
  rcases commitRecord_ok_cases stack st s1 n b h with rfl | ⟨g, hg, hidx, rfl⟩
  · refine ⟨hlen, ?_⟩
    intro k p hp
    obtain ⟨f, hf, ht⟩ := hsync k p hp
    have hpT : p ≠ n ++ ascii "T" := hT p (List.getElem?_mem hp) n hn
    refine ⟨f, ?_, ht⟩
    simp only [FS.unlink, FS.setFile, if_neg hpT]
    rw [flush_files_other _ _ _ _ hpT]
    exact hf
  · refine ⟨by simp only [List.length_set]; exact hlen, ?_⟩
    intro k p hp
    have hk0lt : (st.fno - 1).toNat < paths.length := by
      rw [← hlen]
      omega
    by_cases hpn : p = n
    · subst hpn
      have hk : (st.fno - 1).toNat = k :=
        List.getElem?_inj hk0lt hnd (hk0.trans hp.symm)
      subst hk
      refine ⟨g, by simp [FS.setFile], ?_⟩
      simp only
      rw [List.getElem?_set_self (by rw [hlen]; exact hk0lt)]
    · obtain ⟨f, hf, ht⟩ := hsync k p hp
      have hpT : p ≠ n ++ ascii "T" := hT p (List.getElem?_mem hp) n hn
      have hk : (st.fno - 1).toNat ≠ k := by
        intro e
        rw [e, hp] at hk0
        cases hk0
        exact hpn rfl
      refine ⟨f, ?_, ?_⟩
      · simp only [FS.setFile, FS.unlink, if_neg hpn, if_neg hpT]
        rw [flush_files_other _ _ _ _ hpT]
        exact hf
      · simp only
        rw [List.getElem?_set_ne hk]
        exact ht

/-- A scan that ends normally over records naming the tracked paths from the
position of the counter on, these paths being pairwise distinct and none of
them the temporary output of another: table and tracked files stay in step. -/
theorem splitLoop_ok_sync (stack : Time) (nfiles : Int) (paths : List Path)
    (hnd : paths.Nodup) (hT : ∀ a ∈ paths, ∀ c ∈ paths, a ≠ c ++ ascii "T")
    (lines : List (List Byte)) :
    ∀ (m : Mode) (st st1 : SplitState), splitLoop stack nfiles st m lines = (.ok, st1) →
      1 ≤ st.fno →
      (docRecords m lines).map Prod.fst = paths.drop (st.fno - 1).toNat →
      syncAt st.fs paths st.times → syncAt st1.fs paths st1.times := by
  induction lines with
  | nil =>
    intro m st st1 h hfno hnames hs
    cases m with
    | searching =>
      rw [splitLoop] at h
      cases h
      exact hs
    | inBody n body =>
      rw [splitLoop] at h
      have hk0 : paths[(st.fno - 1).toNat]? = some n := by
        have := congrArg (fun l => l[0]?) hnames
        simp only [docRecords, List.map_cons, List.map_nil, List.getElem?_cons_zero,
          List.getElem?_drop, add_zero] at this
        exact this.symm
      exact commitRecord_sync stack st st1 n body paths h hk0 hnd hT hs
  | cons buf rest ih =>
    intro m st st1 h hfno hnames hs
    cases m with
    | searching =>
      by_cases hst : isStart buf = true
      · rcases splitLoop_start_cases stack nfiles st buf rest hst with
          ⟨e, he, hr, _⟩ | ⟨n, tot, fs1, hp, _, hf, hr⟩
        · rw [hr] at h
          cases h
          exact absurd rfl he
        · rw [hr] at h
          have hdoc : docRecords .searching (buf :: rest) = docRecords (.inBody n []) rest := by
            rw [docRecords, if_pos hst, hp]
          rw [hdoc] at hnames
          obtain ⟨_, _, hother, _⟩ := fopenW_files st.fs fs1 _ hf
          obtain ⟨b, recs, hhead⟩ := docRecords_inBody_head n [] rest
          have hn : n ∈ paths := by
            have : n ∈ (docRecords (.inBody n []) rest).map Prod.fst := by
              rw [hhead]
              simp
            rw [hnames] at this
            exact List.mem_of_mem_drop this
          refine ih (.inBody n []) _ st1 h hfno hnames ⟨hs.1, ?_⟩
          intro k p hpk
          obtain ⟨f, hf', ht⟩ := hs.2 k p hpk
          refine ⟨f, ?_, ht⟩
          simp only
          rw [hother p (hT p (List.getElem?_mem hpk) n hn)]
          exact hf'
      · rw [splitLoop, if_neg hst] at h
        have hdoc : docRecords .searching (buf :: rest) = docRecords .searching rest := by
          rw [docRecords, if_neg hst]
        rw [hdoc] at hnames
        exact ih .searching st st1 h hfno hnames hs
    | inBody n body =>
      by_cases he : isEnd buf = true
      · have hdoc : docRecords (.inBody n body) (buf :: rest) =
            (n, body) :: docRecords .searching rest := by
          rw [docRecords, if_pos he]
        rw [hdoc] at hnames
        rcases splitLoop_end_cases stack nfiles st n body buf rest he with
          ⟨e, s1, hne, _, hr⟩ | ⟨s1, hc, hr⟩
        · rw [hr] at h
          cases h
          exact absurd rfl hne
        · rw [hr] at h
          have hk0 : paths[(st.fno - 1).toNat]? = some n := by
            have := congrArg (fun l => l[0]?) hnames
            simp only [List.map_cons, List.getElem?_cons_zero, List.getElem?_drop,
              add_zero] at this
            exact this.symm
          have hf := commitRecord_fno stack st s1 n body hc
          have hrest : (docRecords .searching rest).map Prod.fst =
              paths.drop (s1.fno - 1).toNat := by
            have := congrArg List.tail hnames
            simp only [List.map_cons, List.tail_cons, List.tail_drop] at this
            rw [this, hf]
            congr 1
            omega
          exact ih .searching s1 st1 h (by omega) hrest
            (commitRecord_sync stack st s1 n body paths hc hk0 hnd hT hs)
      · rw [splitLoop, if_neg he] at h
        have hdoc : docRecords (.inBody n body) (buf :: rest) =
            docRecords (.inBody n (body ++ cstr buf)) rest := by
          rw [docRecords, if_neg he]
        rw [hdoc] at hnames
        exact ih (.inBody n (body ++ cstr buf)) st st1 h hfno hnames hs

theorem fgetsLines_record (p : Path) (c tail : List Byte) (i n : Int)
    (hi : 0 ≤ i) (hin : i ≤ n) (hN : n < 2 ^ 31) (hsafe : roundTripSafe (p, c)) :
    fgetsLines MAXTEXTLINE [] (recordOf p i n c ++ tail) =
      startMarker p i n ::
        (fgetsLines MAXTEXTLINE [] c ++ endMarker p i n :: fgetsLines MAXTEXTLINE [] tail) := by
  obtain ⟨_, _, h10, hlen, _, hnl, _⟩ := hsafe
  simp only at h10 hlen hnl
  have hn0 : 0 ≤ n := by omega
  have hl1 := fmtd_length i hi (by omega)
  have hl2 := fmtd_length n hn0 hN
  have hM : MAXTEXTLINE = 32768 := by decide
  have e1 : recordOf p i n c ++ tail =
      startMarker p i n ++ (c ++ (endMarker p i n ++ tail)) := by
    simp [recordOf, List.append_assoc]
  rw [e1]
  have s1 := fgetsLines_marker p i n (ascii "] Start Fileno: [")
    (c ++ (endMarker p i n ++ tail)) h10 hi hn0 (by decide)
    (by
      have := startMarker_length p i n
      unfold startMarker at this
      rw [this, hM]
      omega)
  have s2 := fgetsLines_marker p i n (ascii "] End Fileno: [") tail h10 hi hn0
    (by decide)
    (by
      have := endMarker_length p i n
      unfold endMarker at this
      rw [this, hM]
      omega)
  have e2 : startMarker p i n = ascii "// [" ++ p ++ ascii "] Start Fileno: [" ++
      fmtd i ++ ascii ":" ++ fmtd n ++ markerTail := rfl
  have e3 : endMarker p i n = ascii "// [" ++ p ++ ascii "] End Fileno: [" ++
      fmtd i ++ ascii ":" ++ fmtd n ++ markerTail := rfl
  rw [e2, s1, fgetsLines_content_append _ _ _ hnl, e3, s2]

theorem docRecords_body (p : Path) (bufs tail : List (List Byte)) (body : List Byte)
    (h : ∀ buf ∈ bufs, isEnd buf = false) :
    docRecords (.inBody p body) (bufs ++ tail) =
      docRecords (.inBody p (body ++ (bufs.map cstr).flatten)) tail := by
  induction bufs generalizing body with
  | nil => simp
  | cons buf bufs ih =>
    have hb : ¬ isEnd buf = true := by
      rw [h buf (List.mem_cons_self _ _)]
      exact Bool.false_ne_true
    show docRecords (.inBody p body) (buf :: (bufs ++ tail)) = _
    rw [docRecords, if_neg hb, ih _ (fun b hb1 => h b (List.mem_cons_of_mem _ hb1))]
    simp [List.append_assoc]

theorem docHeaders_body (p : Path) (bufs tail : List (List Byte)) (body : List Byte)
    (h : ∀ buf ∈ bufs, isEnd buf = false) :
    docHeaders (.inBody p body) (bufs ++ tail) =
      docHeaders (.inBody p (body ++ (bufs.map cstr).flatten)) tail := by
  induction bufs generalizing body with
  | nil => simp
  | cons buf bufs ih =>
    have hb : ¬ isEnd buf = true := by
      rw [h buf (List.mem_cons_self _ _)]
      exact Bool.false_ne_true
    show docHeaders (.inBody p body) (buf :: (bufs ++ tail)) = _
    rw [docHeaders, if_neg hb, ih _ (fun b hb1 => h b (List.mem_cons_of_mem _ hb1))]
    simp [List.append_assoc]

/-- The records and the headers that the scan of split delimits in the merged
document that merge writes for the files `rest`, the first with index `i`. -/
theorem docRecords_merged (n : Int) (hN : n < 2 ^ 31) :
    ∀ (rest : List (Path × List Byte)) (i : Int), 1 ≤ i → i + rest.length ≤ n + 1 →
      (∀ pc ∈ rest, roundTripSafe pc) →
      docRecords .searching (fgetsLines MAXTEXTLINE [] (mergedDocument n i rest)) = rest ∧
      docHeaders .searching (fgetsLines MAXTEXTLINE [] (mergedDocument n i rest)) =
        headersFrom n i rest.length := by
  intro rest
  induction rest with
  | nil =>
    intro i _ _ _
    simp [mergedDocument, fgetsLines_nil_nil, docRecords, docHeaders, headersFrom]
  | cons pc rest ih =>
    intro i hi hlen hsafe
    obtain ⟨p, c⟩ := pc
    simp only [List.length_cons, Nat.cast_add, Nat.cast_one] at hlen
    have hs := hsafe (p, c) (List.mem_cons_self _ _)
    obtain ⟨h0, h93, _, _, hc0, _, hend⟩ := hs
    simp only at h0 h93 hc0 hend
    have hi0 : 0 ≤ i := by omega
    have hn0 : 0 ≤ n := by omega
    obtain ⟨ih1, ih2⟩ := ih (i + 1) (by omega) (by omega)
      (fun q hq => hsafe q (List.mem_cons_of_mem _ hq))
    have hlines := fgetsLines_record p c (mergedDocument n (i + 1) rest) i n hi0 (by omega) hN
      (hsafe (p, c) (List.mem_cons_self _ _))
    have hst := isStart_startMarker p i n h0 hi0 hn0
    have hps := parseStart_startMarker p i n h0 h93 hi0 hn0 (by omega) hN
    have hen := isEnd_endMarker p i n h0 hi0 hn0
    have hj := fgetsLines_join_cstr MAXTEXTLINE c [] (by simpa using hc0)
    constructor
    · rw [mergedDocument, hlines, docRecords, if_pos hst, hps]
      simp only
      rw [docRecords_body p _ _ [] hend, hj]
      simp only [List.nil_append]
      rw [docRecords, if_pos hen, ih1]
    · rw [mergedDocument, hlines, docHeaders, if_pos hst, hps]
      simp only
      rw [docHeaders_body p _ _ [] hend, hj]
      simp only [List.nil_append]
      rw [docHeaders, if_pos hen, ih2]
      simp [headersFrom]

/-- A split that returns normally is a scan that ended normally, followed by
the removal of the snapshot copy. -/
theorem split_ok_inv (stack : Time) (mf mt : Path) (nfiles : Int) (times : List Time) (fs : FS)
    (doc : List Byte) (hd : (datafromfile fs mf).1 = some doc) (st1 : SplitState)
    (h : split stack mf mt nfiles times fs = (.ok, st1)) :
    ∃ fs1 st, (∀ q, q ≠ mt → fs1.files q = fs.files q) ∧ fs1.wdeny = fs.wdeny ∧
      splitLoop stack nfiles ⟨fs1, times, 1, [], 2 * (datafromfile fs mf).2⟩ .searching (fgetsLines MAXTEXTLINE [] doc) =
        (.ok, st) ∧
      st1 = { st with fs := st.fs.unlink mt } := by
  rcases split_cases stack mf mt nfiles times fs doc hd with ⟨_, hub⟩ | ⟨fs1, hf, hw, hok, herr⟩
  · rw [hub] at h
    cases h
  · rcases hr : splitLoop stack nfiles ⟨fs1, times, 1, [], 2 * (datafromfile fs mf).2⟩ .searching
        (fgetsLines MAXTEXTLINE [] doc) with ⟨e, st⟩
    by_cases he : e = .ok
    · subst he
      have h2 := hok st hr
      rw [h2] at h
      exact ⟨fs1, st, hf, hw, hr, (Prod.mk.inj h).2.symm⟩
    · have h2 := herr e st he hr
      rw [h2] at h
      exact absurd (Prod.mk.inj h).1 he

theorem revDigits_fuel : ∀ (f g n : Nat), n < f → n < g → revDigits f n = revDigits g n := by
  intro f
  induction f with
  | zero => intro g n h; omega
  | succ f ih =>
    intro g n hf hg
    cases g with
    | zero => omega
    | succ g =>
      rw [revDigits, revDigits]
      by_cases h10 : n < 10
      · rw [if_pos h10, if_pos h10]
      · rw [if_neg h10, if_neg h10, ih g (n / 10) (by omega) (by omega)]

theorem digitChar_eq (n : Nat) : digitChar n = Fin.ofNat (48 + n % 10) := rfl

/-- The two equations of decimal notation, which determine what `fmtd` prints
for a natural number. -/
theorem fmtd_decimal :
    (∀ n : Nat, n < 10 → fmtd (n : Int) = [Fin.ofNat (48 + n)]) ∧
    (∀ n : Nat, 10 ≤ n → fmtd (n : Int) = fmtd ((n / 10 : Nat) : Int) ++ [Fin.ofNat (48 + n % 10)]) := by
  constructor
  · intro n hn
    unfold fmtd
    rw [if_neg (by omega)]
    simp only [Int.natAbs_ofNat]
    rw [revDigits, if_pos hn]
    simp only [List.reverse_cons, List.reverse_nil, List.nil_append, digitChar_eq]
    rw [Nat.mod_eq_of_lt hn]
  · intro n hn
    unfold fmtd
    rw [if_neg (by omega), if_neg (by omega)]
    simp only [Int.natAbs_ofNat]
    rw [revDigits, if_neg (by omega)]
    simp only [List.reverse_cons, digitChar_eq]
    rw [revDigits_fuel n (n / 10 + 1) (n / 10) (by omega) (by omega)]

/-- Merge followed by split, with no edit in between, does not give back a text
file that lacks a final newline.  For the single tracked file `a` holding "x",
merge succeeds, split finishes without a fatal error, and `a` then holds "x"
followed by its own End marker line: the End marker was written on the line of
the last byte, where split's test on the start of a line does not see it. -/
theorem roundtrip_breaks_without_final_newline :
    (fsNoNewline.openR (ascii "a")).map File.data = some (ascii "x") ∧
    (merge true mergePath [ascii "a"] stack0 fsNoNewline).1 = .ok ∧
    (split stack0 mergePath tempPath 1 (merge true mergePath [ascii "a"] stack0 fsNoNewline).2.2
      (merge true mergePath [ascii "a"] stack0 fsNoNewline).2.1).1 = .ok ∧
    ((split stack0 mergePath tempPath 1 (merge true mergePath [ascii "a"] stack0 fsNoNewline).2.2
      (merge true mergePath [ascii "a"] stack0 fsNoNewline).2.1).2.fs.openR (ascii "a")).map
        File.data = some (ascii "x" ++ endMarker (ascii "a") 1 1) := by
  decide

/-- C2: when the merged document can be opened for writing and is not itself a
tracked file, merge over openable text files `(p_1, c_1) .. (p_N, c_N)` returns
normally and the merged document is exactly the concatenation, in order, of
Start marker line `(p_i, i, N)`, the bytes `c_i`, End marker line `(p_i, i, N)`,
the index and the total being written in decimal notation: one digit below
ten, and otherwise the notation of the tenth part followed by the last digit. -/
theorem merge_output_format (sc : Bool) (mf : Path) (files : List (Path × List Byte))
    (stack : Time) (fs : FS) (hw : fs.wdeny mf = false) (hmf : mf ∉ files.map Prod.fst)
    (h : ∀ pc ∈ files, holdsText fs pc) :
    (merge sc mf (files.map Prod.fst) stack fs).1 = .ok ∧
    ((merge sc mf (files.map Prod.fst) stack fs).2.1.openR mf).map File.data =
      some (mergedDocument files.length 1 files) ∧
    (∀ (n i : Int) (p : Path) (c : List Byte) (rest : List (Path × List Byte)),
      mergedDocument n i [] = [] ∧
      mergedDocument n i ((p, c) :: rest) =
        (ascii "// [" ++ p ++ ascii "] Start Fileno: [" ++ fmtd i ++ ascii ":" ++ fmtd n ++
          ascii "] ********************************************************** VIP\n") ++ c ++
        (ascii "// [" ++ p ++ ascii "] End Fileno: [" ++ fmtd i ++ ascii ":" ++ fmtd n ++
          ascii "] ********************************************************** VIP\n") ++
        mergedDocument n (i + 1) rest) ∧
    (∀ n : Nat, n < 10 → fmtd (n : Int) = [Fin.ofNat (48 + n)]) ∧
    (∀ n : Nat, 10 ≤ n →
      fmtd (n : Int) = fmtd ((n / 10 : Nat) : Int) ++ [Fin.ofNat (48 + n % 10)]) :=
  ⟨(merge_text sc mf files stack fs hw hmf h).1, (merge_text sc mf files stack fs hw hmf h).2,
    fun _ _ _ _ _ => ⟨rfl, rfl⟩, fmtd_decimal.1, fmtd_decimal.2⟩

/-- Witness of C2: the text files `a` and `b` holding "x\n" and "y\n"; the
merged document, byte for byte. -/
theorem merge_output_format_witness :
    (merge true mergePath [ascii "a", ascii "b"] stack0 fsShort).1 = .ok ∧
    ((merge true mergePath [ascii "a", ascii "b"] stack0 fsShort).2.1.openR mergePath).map
        File.data =
      some (ascii ("// [a] Start Fileno: [1:2] " ++
        "********************************************************** VIP\nx\n" ++
        "// [a] End Fileno: [1:2] " ++
        "********************************************************** VIP\n" ++
        "// [b] Start Fileno: [2:2] " ++
        "********************************************************** VIP\ny\n" ++
        "// [b] End Fileno: [2:2] " ++
        "********************************************************** VIP\n")) ∧
    fmtd 2147483647 = ascii "2147483647" :=
  have h := merge_output_format true mergePath [(ascii "a", ascii "x\n"), (ascii "b", ascii "y\n")]
    stack0 fsShort (by decide) (by decide)
    (by
      intro pc hpc
      simp only [List.mem_cons, List.mem_singleton, List.not_mem_nil, or_false] at hpc
      rcases hpc with rfl | rfl
      · exact ⟨⟨ascii "x\n", ⟨5, 0⟩⟩, by decide, rfl, by decide⟩
      · exact ⟨⟨ascii "y\n", ⟨5, 0⟩⟩, by decide, rfl, by decide⟩)
  ⟨h.1, h.2.1.trans (by decide), by decide⟩

/-- C3: `binarydata(buf, n)` returns 1 exactly when one of the first `n` bytes
is not a text byte (and 0 otherwise), whatever the signedness of `char`; and
when the merged document can be opened for writing, is not itself tracked, and
every tracked file can be opened, merge ends with the binary-file error exactly
when some tracked file holds a byte that is not a text byte. -/
theorem binary_detection (sc : Bool) (mf : Path) (names : List Path) (stack : Time) (fs : FS)
    (hw : fs.wdeny mf = false) (hmf : mf ∉ names)
    (hopen : ∀ p ∈ names, (fs.openR p).isSome = true) :
    (∀ (buf : List Byte) (n : Nat),
      (binarydata sc buf n = 1 ↔ ∃ b ∈ buf.take n, ¬ isTextByte b) ∧
      (binarydata sc buf n = 0 ↔ ∀ b ∈ buf.take n, isTextByte b)) ∧
    (¬ isTextByte 0 ∧ ¬ isTextByte 127 ∧ ∀ b : Byte, 128 ≤ b.val → ¬ isTextByte b) ∧
    ((∃ p, (merge sc mf names stack fs).1 = .binaryFile p) ↔
      ∃ p ∈ names, ∃ f, fs.openR p = some f ∧ ∃ b ∈ f.data, ¬ isTextByte b) := by
  refine ⟨?_, ⟨by decide, by decide, ?_⟩, ?_⟩
  · intro buf n
    refine ⟨binarydata_eq_one_iff sc buf n, ?_⟩
    have h1 := binarydata_eq_one_iff sc buf n
    rcases binarydata_zero_or_one sc buf n with h0 | h0
    · rw [h0] at h1
      simp only [h0, true_iff]
      intro b hb
      by_contra hc
      exact absurd (h1.2 ⟨b, hb, hc⟩) (by decide)
    · simp only [h0, one_ne_zero, false_iff]
      obtain ⟨b, hb, hn⟩ := h1.1 h0
      exact fun hall => hn (hall b hb)
  · intro b hb
    unfold isTextByte
    omega
  · constructor
    · rintro ⟨p, hp⟩
      by_contra hc
      have hall : ∀ pc ∈ names.map (fun q => (q, ((fs.openR q).map File.data).getD [])),
          holdsText fs pc := by
        intro pc hpc
        obtain ⟨q, hq, rfl⟩ := List.mem_map.1 hpc
        obtain ⟨f, hf⟩ := Option.isSome_iff_exists.1 (hopen q hq)
        refine ⟨f, hf, by simp [hf], ?_⟩
        intro b hb
        by_contra hn
        exact hc ⟨q, hq, f, hf, b, by simpa [hf] using hb, hn⟩
      have hmap : (names.map (fun q => (q, ((fs.openR q).map File.data).getD []))).map Prod.fst
          = names := by
        simp [List.map_map, Function.comp_def]
      have hm := merge_text sc mf _ stack fs hw (by rw [hmap]; exact hmf) hall
      rw [hmap] at hm
      rw [hm.1] at hp
      cases hp
    · intro hb
      obtain ⟨pre, p, post, f, hn, hpre, hf, hbf⟩ := split_at_first_binary fs names hopen hb
      subst hn
      obtain ⟨k, hk, _⟩ := merge_binary sc mf pre p post f stack fs hw hmf hpre hf hbf
      exact ⟨p, hk⟩

/-- Witness of C3: the single text file `a` holding "x\n". -/
theorem binary_detection_witness :
    ((∃ p, (merge true mergePath [ascii "a"] stack0 fsLine).1 = .binaryFile p) ↔
      ∃ p ∈ [ascii "a"], ∃ f, fsLine.openR p = some f ∧ ∃ b ∈ f.data, ¬ isTextByte b) :=
  (binary_detection true mergePath [ascii "a"] stack0 fsLine (by decide) (by decide)
    (by decide)).2.2

/-- Counterexample to C4: the single tracked file `a` holds the byte 0x00; the
merged document does not exist before merge; merge aborts with the binary-file
error, and at the abort the merged document exists and holds the Start marker
line of `a`. -/
theorem merge_binary_abort_output_counterexample :
    (fsNul.openR (ascii "a")).map File.data = some [0] ∧
    fsNul.openR mergePath = none ∧
    (merge true mergePath [ascii "a"] stack0 fsNul).1 = .binaryFile (ascii "a") ∧
    ((merge true mergePath [ascii "a"] stack0 fsNul).2.1.openR mergePath).map File.data =
      some (startMarker (ascii "a") 1 1) := by
  decide

/-- C4 as amended: when the merged document can be opened for writing, is not
itself tracked, every tracked file can be opened and some tracked file holds
the byte 0x00, merge aborts with the binary-file error on the first tracked
file `p` that holds a byte that is not text; at the abort the merged document
has been created and holds the complete records of the files before `p`, then
the Start marker line of `p`, then the `k` chunks of `TEMPBUFSIZE` bytes of `p`
read before the offending chunk, and nothing else: no End marker of `p`, no
later record.  These `k` chunks are all text and chunk `k`, the next one,
holds a byte that is not text. -/
theorem merge_binary_abort_partial_output (sc : Bool) (mf : Path) (names : List Path)
    (stack : Time) (fs : FS) (hw : fs.wdeny mf = false) (hmf : mf ∉ names)
    (hopen : ∀ p ∈ names, (fs.openR p).isSome = true)
    (hz : ∃ p ∈ names, ∃ f, fs.openR p = some f ∧ (0 : Byte) ∈ f.data) :
    ∃ (pre : List (Path × List Byte)) (p : Path) (post : List Path) (f : File) (k : Nat),
      names = pre.map Prod.fst ++ p :: post ∧ (∀ pc ∈ pre, holdsText fs pc) ∧
      fs.openR p = some f ∧ (∃ b ∈ f.data, ¬ isTextByte b) ∧
      (merge sc mf names stack fs).1 = .binaryFile p ∧
      ((merge sc mf names stack fs).2.1.openR mf).map File.data =
        some (mergedDocument names.length 1 pre ++
          startMarker p (pre.length + 1) names.length ++ f.data.take (k * TEMPBUFSIZE)) ∧
      (∀ b ∈ f.data.take (k * TEMPBUFSIZE), isTextByte b) ∧
      (∃ b ∈ (f.data.drop (k * TEMPBUFSIZE)).take TEMPBUFSIZE, ¬ isTextByte b) := by
  have hb : ∃ p ∈ names, ∃ f, fs.openR p = some f ∧ ∃ b ∈ f.data, ¬ isTextByte b := by
    obtain ⟨p, hp, f, hf, h0⟩ := hz
    exact ⟨p, hp, f, hf, 0, h0, by decide⟩
  obtain ⟨pre, p, post, f, hn, hpre, hf, hbf⟩ := split_at_first_binary fs names hopen hb
  subst hn
  obtain ⟨k, hk1, hk2, hk3, hk4⟩ := merge_binary sc mf pre p post f stack fs hw hmf hpre hf hbf
  exact ⟨pre, p, post, f, k, rfl, hpre, hf, hbf, hk1, hk2, hk3, hk4⟩

/-- Witness of C4 as amended: the single tracked file `a` holding the byte 0x00. -/
theorem merge_binary_abort_partial_output_witness :
    ∃ (pre : List (Path × List Byte)) (p : Path) (post : List Path) (f : File) (k : Nat),
      [ascii "a"] = pre.map Prod.fst ++ p :: post ∧ (∀ pc ∈ pre, holdsText fsNul pc) ∧
      fsNul.openR p = some f ∧ (∃ b ∈ f.data, ¬ isTextByte b) ∧
      (merge true mergePath [ascii "a"] stack0 fsNul).1 = .binaryFile p ∧
      ((merge true mergePath [ascii "a"] stack0 fsNul).2.1.openR mergePath).map File.data =
        some (mergedDocument ([ascii "a"] : List Path).length 1 pre ++
          startMarker p (pre.length + 1) ([ascii "a"] : List Path).length ++
          f.data.take (k * TEMPBUFSIZE)) ∧
      (∀ b ∈ f.data.take (k * TEMPBUFSIZE), isTextByte b) ∧
      (∃ b ∈ (f.data.drop (k * TEMPBUFSIZE)).take TEMPBUFSIZE, ¬ isTextByte b) :=
  merge_binary_abort_partial_output true mergePath [ascii "a"] stack0 fsNul (by decide)
    (by decide) (by decide) ⟨ascii "a", by decide, ⟨[0], ⟨5, 0⟩⟩, by decide, by decide⟩

/-- Counterexample to C8: the merged document `docTwice` holds two records that
both name the file `a`, with the bodies "x\n" and "y\n".  The first split
finishes without a fatal error and leaves the merged document as it was; the
second split on the same document renames a new file into place twice and
changes both table entries. -/
theorem split_twice_same_name_counterexample :
    splitTwiceFirst.1 = .ok ∧
    datafromfile splitTwiceFirst.2.fs mergePath = datafromfile fsTwice mergePath ∧
    (split stack0 mergePath tempPath 2 splitTwiceFirst.2.times splitTwiceFirst.2.fs).1 = .ok ∧
    (split stack0 mergePath tempPath 2 splitTwiceFirst.2.times splitTwiceFirst.2.fs).2.replaced =
      [(ascii "a", 0), (ascii "a", 1)] ∧
    (split stack0 mergePath tempPath 2 splitTwiceFirst.2.times splitTwiceFirst.2.fs).2.times ≠
      splitTwiceFirst.2.times := by
  decide

/-- C8 as amended: when split finishes without a fatal error on a merged
document whose records name pairwise distinct files, none of them the snapshot
path `mergetempname`, and the merged document still reads the same, a second
split performs no real write: it renames no file into place, changes no table
entry, and leaves every path other than `mergetempname` and the temporary
outputs `name ++ "T"` of the records with the file it had. -/
theorem split_twice_no_real_writes (stack : Time) (mf mt : Path) (nfiles : Int)
    (times : List Time) (fs : FS) (st1 : SplitState) (doc : List Byte)
    (h1 : split stack mf mt nfiles times fs = (.ok, st1))
    (hd0 : (datafromfile fs mf).1 = some doc)
    (hd1 : (datafromfile st1.fs mf).1 = some doc)
    (hnodup : ((docRecords .searching (fgetsLines MAXTEXTLINE [] doc)).map Prod.fst).Nodup)
    (hmt : mt ∉ (docRecords .searching (fgetsLines MAXTEXTLINE [] doc)).map Prod.fst) :
    (split stack mf mt nfiles st1.times st1.fs).2.replaced = [] ∧
    (split stack mf mt nfiles st1.times st1.fs).2.times = st1.times ∧
    ∀ q, q ≠ mt →
      (∀ pc ∈ docRecords .searching (fgetsLines MAXTEXTLINE [] doc), q ≠ pc.1 ++ ascii "T") →
      (split stack mf mt nfiles st1.times st1.fs).2.fs.files q = st1.fs.files q := by
  -- the first run leaves every record on disk
  have hdisk : recordsOnDisk st1.fs (docRecords .searching (fgetsLines MAXTEXTLINE [] doc)) := by
    rcases split_cases stack mf mt nfiles times fs doc hd0 with ⟨_, hub⟩ | ⟨fs1, _, _, hok, hbad⟩
    · rw [hub] at h1
      cases h1
    · cases hl : splitLoop stack nfiles ⟨fs1, times, 1, [], 2 * (datafromfile fs mf).2⟩ .searching
          (fgetsLines MAXTEXTLINE [] doc) with
      | mk e st =>
        by_cases he : e = Exit.ok
        · subst he
          rw [hok st hl] at h1
          cases h1
          have := splitLoop_ok_onDisk stack nfiles _ .searching _ st hl hnodup
            (by intro n body hm; cases hm)
          intro pc hpc f hf
          simp only [FS.unlink, FS.setFile] at hf
          split at hf
          · cases hf
          · exact this pc hpc f hf
        · rw [hbad e st he hl] at h1
          cases h1
          exact absurd rfl he
  rcases split_cases stack mf mt nfiles st1.times st1.fs doc hd1 with
    ⟨_, hub⟩ | ⟨fs2, hfr, _, hok, hbad⟩
  · rw [hub]
    exact ⟨rfl, rfl, fun _ _ _ => rfl⟩
  · have hnw := splitLoop_no_writes stack nfiles (fgetsLines MAXTEXTLINE [] doc) .searching
      ⟨fs2, st1.times, 1, [], 2 * (datafromfile st1.fs mf).2⟩
      (by
        intro pc hpc _ f hf
        have hne : pc.1 ≠ mt := by
          intro e
          apply hmt
          rw [← e]
          exact List.mem_map_of_mem _ hpc
        simp only at hf
        rw [hfr pc.1 hne] at hf
        exact hdisk pc hpc f hf)
      (by intro n body hm; cases hm)
    cases hl : splitLoop stack nfiles ⟨fs2, st1.times, 1, [], 2 * (datafromfile st1.fs mf).2⟩ .searching
        (fgetsLines MAXTEXTLINE [] doc) with
    | mk e st =>
      rw [hl] at hnw
      simp only at hnw
      by_cases he : e = Exit.ok
      · subst he
        rw [hok st hl]
        refine ⟨hnw.1, hnw.2.1, ?_⟩
        intro q hq hqT
        simp only [FS.unlink, FS.setFile, if_neg hq]
        rw [hnw.2.2 q hqT]
        exact hfr q hq
      · rw [hbad e st he hl]
        refine ⟨hnw.1, hnw.2.1, ?_⟩
        intro q hq hqT
        simp only
        rw [hnw.2.2 q hqT]
        exact hfr q hq

/-- Witness of C8 as amended: the file `a` holds "x\n" and the merged document
holds the single record of `a` with the body "y\n"; the first split replaces
`a`, the second one writes nothing. -/
theorem split_twice_no_real_writes_witness :
    splitEditFirst.1 = .ok ∧
    splitEditFirst.2.replaced = [(ascii "a", 0)] ∧
    (split stack0 mergePath tempPath 1 splitEditFirst.2.times splitEditFirst.2.fs).2.replaced = [] ∧
    (split stack0 mergePath tempPath 1 splitEditFirst.2.times splitEditFirst.2.fs).2.times =
      splitEditFirst.2.times :=
  have h := split_twice_no_real_writes stack0 mergePath tempPath 1 [⟨5, 0⟩] fsEdit
    splitEditFirst.2 docEdit (Prod.ext (by decide) rfl) (by decide) (by decide) (by decide)
    (by decide)
  ⟨by decide, by decide, h.1, h.2.1⟩

/-- C9: for a path without NUL (a C string), without `]` and without newline,
and integers `1 ≤ i ≤ n`, the Start marker line that merge emits passes split's
Start-marker test and split's field extraction on it yields the path and the
two numbers as `atoi` stores them in an `int`, which are `i` and `n` whenever
`n` is an `int` (below 2^31), as the index and the total of merge are; the End
marker line passes the End-marker test; and as long as the line fits the
buffer, `fgets` hands each marker to split as one buffer. -/
theorem marker_parse_roundtrip (p : Path) (i n : Int) (h0 : (0 : Byte) ∉ p)
    (hb : (93 : Byte) ∉ p) (hnl : (10 : Byte) ∉ p) (hi : 1 ≤ i) (hin : i ≤ n) :
    isStart (startMarker p i n) = true ∧
    parseStart (startMarker p i n) =
      .ok (p, longToInt (min i (2 ^ 63 - 1)), longToInt (min n (2 ^ 63 - 1))) ∧
    (n < 2 ^ 31 → parseStart (startMarker p i n) = .ok (p, i, n)) ∧
    isEnd (endMarker p i n) = true ∧
    (∀ rest, (startMarker p i n).length < MAXTEXTLINE →
      fgetsLines MAXTEXTLINE [] (startMarker p i n ++ rest) =
        startMarker p i n :: fgetsLines MAXTEXTLINE [] rest) ∧
    (∀ rest, (endMarker p i n).length < MAXTEXTLINE →
      fgetsLines MAXTEXTLINE [] (endMarker p i n ++ rest) =
        endMarker p i n :: fgetsLines MAXTEXTLINE [] rest) := by
  have hi0 : 0 ≤ i := by omega
  have hn0 : 0 ≤ n := by omega
  refine ⟨isStart_startMarker p i n h0 hi0 hn0, ?_,
    fun hN => parseStart_startMarker p i n h0 hb hi0 hn0 (by omega) hN,
    isEnd_endMarker p i n h0 hi0 hn0, ?_, ?_⟩
  · rw [parseStart_startMarker_atoi p i n h0 hb hi0 hn0, atoi_fmtd_long i hi0,
      atoi_fmtd_long n hn0]
  · intro rest hlen
    exact fgetsLines_marker p i n (ascii "] Start Fileno: [") rest hnl hi0 hn0 (by decide) hlen
  · intro rest hlen
    exact fgetsLines_marker p i n (ascii "] End Fileno: [") rest hnl hi0 hn0 (by decide) hlen

/-- Witness of C9: the path `a.c` with index 3 of 12. -/
theorem marker_parse_roundtrip_witness :
    isStart (startMarker (ascii "a.c") 3 12) = true ∧
    parseStart (startMarker (ascii "a.c") 3 12) = .ok (ascii "a.c", 3, 12) ∧
    isEnd (endMarker (ascii "a.c") 3 12) = true :=
  have h := marker_parse_roundtrip (ascii "a.c") 3 12 (by decide) (by decide) (by decide)
    (by decide) (by decide)
  ⟨h.1, h.2.2.1 (by decide), h.2.2.2.1⟩

/-- C10 (fails on the code): for the path `missing`, which cannot be opened,
`filetime` does not return the sentinel (0,0): it returns what the stack held
in its `struct stat`, here (7,7).  The stores of 0 at lines 113-114 are not
followed by a return and are overwritten at lines 119-125. -/
theorem filetime_open_failure_not_sentinel :
    (fsOf []).openR (ascii "missing") = none ∧
    filetime (fsOf []) (ascii "missing") stack0 = ⟨7, 7⟩ ∧
    filetime (fsOf []) (ascii "missing") stack0 ≠ ⟨0, 0⟩ := by
  decide

/-- C11: with `r j` the bytes returned by the `j`-th read of the merged
document (pair `k` is made of the reads `2k` and `2k+1`), the snapshot loop
accepts the content of the first pair whose two reads are equal when that pair
is among the first 20; it ends with the consistency error exactly when the
first 20 pairs all disagree; and its result depends on the first 40 reads
only: it never performs more than 20 pairs of reads. -/
theorem snapshot_loop_first_agreeing_pair (mf : Path) (r : Nat → List Byte) (k : Nat)
    (hk : k < 20) (hagree : r (2 * k) = r (2 * k + 1))
    (hfirst : ∀ j, j < k → r (2 * j) ≠ r (2 * j + 1)) :
    snapshotLoop mf (fun j => some (r j)) 20 = .ok (r (2 * k)) ∧
    (∀ r1 : Nat → List Byte,
      snapshotLoop mf (fun j => some (r1 j)) 20 =
          .error (.errorexit "split: Error geting consitent data" none) ↔
        ∀ j, j < 20 → r1 (2 * j) ≠ r1 (2 * j + 1)) ∧
    (∀ reads reads1 : Nat → Option (List Byte), (∀ j, j < 40 → reads j = reads1 j) →
      snapshotLoop mf reads 20 = snapshotLoop mf reads1 20) := by
  refine ⟨snapshotLoop_agree mf r 20 (le_refl _) k (by omega) hk hagree
    (fun j _ hj => hfirst j hj), ?_, ?_⟩
  · intro r1
    constructor
    · intro herr j hj hag
      have hex : ∃ i, i < 20 ∧ r1 (2 * i) = r1 (2 * i + 1) := ⟨j, hj, hag⟩
      obtain ⟨h1, h2⟩ := Nat.find_spec hex
      have := snapshotLoop_agree mf r1 20 (le_refl _) (Nat.find hex) (by omega) h1 h2
        (fun i _ hi hc => Nat.find_min hex hi ⟨by omega, hc⟩)
      rw [this] at herr
      cases herr
    · intro hall
      exact snapshotLoop_disagree mf r1 20 (le_refl _) (fun j _ hj => hall j hj)
  · intro reads reads1 h
    exact snapshotLoop_reads mf reads reads1 20 (le_refl _) h

/-- Witness of C11: two torn pairs, then a pair that agrees on "abc". -/
theorem snapshot_loop_first_agreeing_pair_witness :
    snapshotLoop mergePath (fun j => some (readsTorn j)) 20 = .ok (ascii "abc") :=
  (snapshot_loop_first_agreeing_pair mergePath readsTorn 2 (by decide) (by decide)
    (by
      intro j hj
      interval_cases j <;> decide)).1

/-- C12, counterexample: with two tracked files, split returns normally on a
merged document that holds a single record (index 1, total 2). -/
theorem split_accepts_short_document_counterexample :
    (datafromfile fsShort mergePath).1 = some docShort ∧
    (split stack0 mergePath tempPath 2 [⟨5, 0⟩, ⟨5, 0⟩] fsShort).1 = .ok ∧
    docHeaders .searching (fgetsLines MAXTEXTLINE [] docShort) = [(1, 2)] ∧
    (docRecords .searching (fgetsLines MAXTEXTLINE [] docShort)).length = 1 := by
  decide

/-- C12, amended: in a merged document on which split, with N tracked files,
returns normally, the Start markers that open records carry, as `atoi` stores
their fields in an `int`, the indices 1, 2, ..., k in this order and all the
total N, k being the number of records of the document; the running counter
ends at k + 1.  Nothing relates k to N. -/
theorem split_accepted_headers_sequential (stack : Time) (mf mt : Path) (nfiles : Int)
    (times : List Time) (fs : FS) (doc : List Byte) (st1 : SplitState)
    (hd : (datafromfile fs mf).1 = some doc)
    (h : split stack mf mt nfiles times fs = (.ok, st1)) :
    docHeaders .searching (fgetsLines MAXTEXTLINE [] doc) =
      headersFrom nfiles 1 (docRecords .searching (fgetsLines MAXTEXTLINE [] doc)).length ∧
    st1.fno = 1 + (docRecords .searching (fgetsLines MAXTEXTLINE [] doc)).length := by
  obtain ⟨fs1, st, _, _, hl, hst⟩ := split_ok_inv stack mf mt nfiles times fs doc hd st1 h
  obtain ⟨h1, h2⟩ := splitLoop_ok_headers stack nfiles _ .searching _ st hl
  subst hst
  exact ⟨h2, h1⟩

/-- Witness of C12 as amended: the edited document of the single file `a`. -/
theorem split_accepted_headers_sequential_witness :
    docHeaders .searching (fgetsLines MAXTEXTLINE [] docEdit) =
      headersFrom 1 1 (docRecords .searching (fgetsLines MAXTEXTLINE [] docEdit)).length ∧
    splitEditFirst.2.fno = 1 + (docRecords .searching (fgetsLines MAXTEXTLINE [] docEdit)).length :=
  split_accepted_headers_sequential stack0 mergePath tempPath 1 [⟨5, 0⟩] fsEdit docEdit
    splitEditFirst.2 (by decide) (Prod.ext (by decide) rfl)

/-- C13, counterexample: the path `a` is tracked twice, table and files are in
step, and the document names `a`, `a`; split returns normally and afterwards
the check of the watching loop counts one differing file. -/
theorem split_sync_duplicate_path_counterexample :
    inSync fsTwice [ascii "a", ascii "a"] [⟨5, 0⟩, ⟨5, 0⟩] ∧
    splitTwiceFirst.1 = .ok ∧
    (docRecords .searching (fgetsLines MAXTEXTLINE [] docTwice)).map Prod.fst =
      [ascii "a", ascii "a"] ∧
    countChanged splitTwiceFirst.2.fs (fun _ => stack0) [ascii "a", ascii "a"]
      splitTwiceFirst.2.times = 1 :=
  ⟨⟨⟨⟨ascii "x\n", ⟨5, 0⟩⟩, by decide, rfl⟩, ⟨⟨ascii "x\n", ⟨5, 0⟩⟩, by decide, rfl⟩, trivial⟩,
    by decide, by decide, by decide⟩

/-- C13, amended: if table and tracked files are in step before split, the
tracked paths are pairwise distinct, none of them is another one followed by
`T`, the snapshot path is not tracked, and split returns normally on a document
whose records name the tracked paths in order, then table and tracked files are
in step after split, the check of the watching loop counts zero differing files
and the merge step of that iteration does not run. -/
theorem split_keeps_timestamps_in_sync (sc : Bool) (stack : Time) (garbage : Nat → Time)
    (mf mt : Path)
    (paths : List Path) (times : List Time) (fs : FS) (doc : List Byte) (st1 : SplitState)
    (mergetime : Time)
    (hd : (datafromfile fs mf).1 = some doc)
    (h : split stack mf mt paths.length times fs = (.ok, st1))
    (hnames : (docRecords .searching (fgetsLines MAXTEXTLINE [] doc)).map Prod.fst = paths)
    (hsync : inSync fs paths times)
    (hnd : paths.Nodup)
    (hT : ∀ a ∈ paths, ∀ c ∈ paths, a ≠ c ++ ascii "T")
    (hmt : mt ∉ paths) :
    inSync st1.fs paths st1.times ∧
    countChanged st1.fs (fun k => garbage (3 + k)) paths st1.times = 0 ∧
    watchMerge sc stack garbage mf paths ⟨st1.fs, st1.times, mergetime⟩ =
      (.ok, ⟨st1.fs, st1.times, mergetime⟩, false) := by
  obtain ⟨fs1, st, hf, _, hl, hst⟩ := split_ok_inv stack mf mt paths.length times fs doc hd st1 h
  have hs0 : syncAt fs paths times := (inSync_iff_syncAt fs paths times).1 hsync
  have hs1 : syncAt fs1 paths times := by
    refine ⟨hs0.1, ?_⟩
    intro k p hk
    have hp : p ≠ mt := by
      intro e
      subst e
      exact hmt (List.getElem?_mem hk)
    rw [hf p hp]
    exact hs0.2 k p hk
  have hs2 : syncAt st.fs paths st.times :=
    splitLoop_ok_sync stack paths.length paths hnd hT _ .searching ⟨fs1, times, 1, [], 2 * (datafromfile fs mf).2⟩ st hl
      (le_refl _) (by simpa using hnames) hs1
  have hs3 : syncAt st1.fs paths st1.times := by
    subst hst
    refine ⟨hs2.1, ?_⟩
    intro k p hk
    have hp : p ≠ mt := by
      intro e
      subst e
      exact hmt (List.getElem?_mem hk)
    obtain ⟨f, hf1, hf2⟩ := hs2.2 k p hk
    refine ⟨f, ?_, hf2⟩
    show (st.fs.unlink mt).files p = some f
    simp only [FS.unlink, FS.setFile]
    rw [if_neg hp]
    exact hf1
  have hin : inSync st1.fs paths st1.times := (inSync_iff_syncAt _ _ _).2 hs3
  have hc : countChanged st1.fs (fun k => garbage (3 + k)) paths st1.times = 0 :=
    countChanged_inSync _ _ _ _ hin
  refine ⟨hin, hc, ?_⟩
  unfold watchMerge
  simp only
  rw [if_neg (by simp [hc])]

/-- Witness of C13 as amended: the file `a` is replaced by the edited body and
its entry in the table is refreshed. -/
theorem split_keeps_timestamps_in_sync_witness :
    inSync splitEditFirst.2.fs [ascii "a"] splitEditFirst.2.times ∧
    countChanged splitEditFirst.2.fs (fun k => (fun _ => stack0) (3 + k)) [ascii "a"]
      splitEditFirst.2.times = 0 ∧
    watchMerge true stack0 (fun _ => stack0) mergePath [ascii "a"]
        ⟨splitEditFirst.2.fs, splitEditFirst.2.times, ⟨5, 0⟩⟩ =
      (.ok, ⟨splitEditFirst.2.fs, splitEditFirst.2.times, ⟨5, 0⟩⟩, false) :=
  split_keeps_timestamps_in_sync true stack0 (fun _ => stack0) mergePath tempPath [ascii "a"]
    [⟨5, 0⟩] fsEdit
    docEdit splitEditFirst.2 ⟨5, 0⟩ (by decide) (Prod.ext (by decide) rfl) (by decide)
    ⟨⟨⟨ascii "x\n", ⟨5, 0⟩⟩, by decide, rfl⟩, trivial⟩ (by decide) (by decide) (by decide)

/-- C16: the tracked paths `aT` and `a` are distinct, hold text and contain
neither `]` nor a newline; merge and then split return normally, no record
differs from its file, and after split the tracked file `aT` no longer exists:
the commit step of the record of `a` wrote and removed it as its temporary
output. -/
theorem split_commit_removes_tracked_temp_name :
    [ascii "aT", ascii "a"].Nodup ∧
    (merge true mergePath [ascii "aT", ascii "a"] stack0 fsTemp).1 = .ok ∧
    docRecords .searching (fgetsLines MAXTEXTLINE []
      (mergedDocument 2 1 [(ascii "aT", ascii "y\n"), (ascii "a", ascii "x\n")])) =
      [(ascii "aT", ascii "y\n"), (ascii "a", ascii "x\n")] ∧
    ((merge true mergePath [ascii "aT", ascii "a"] stack0 fsTemp).2.1.openR mergePath).map
      File.data = some (mergedDocument 2 1 [(ascii "aT", ascii "y\n"), (ascii "a", ascii "x\n")]) ∧
    ((merge true mergePath [ascii "aT", ascii "a"] stack0 fsTemp).2.1.openR (ascii "aT")).map
      File.data = some (ascii "y\n") ∧
    (split stack0 mergePath tempPath 2
      (merge true mergePath [ascii "aT", ascii "a"] stack0 fsTemp).2.2
      (merge true mergePath [ascii "aT", ascii "a"] stack0 fsTemp).2.1).1 = .ok ∧
    (split stack0 mergePath tempPath 2
      (merge true mergePath [ascii "aT", ascii "a"] stack0 fsTemp).2.2
      (merge true mergePath [ascii "aT", ascii "a"] stack0 fsTemp).2.1).2.replaced = [] ∧
    ((split stack0 mergePath tempPath 2
      (merge true mergePath [ascii "aT", ascii "a"] stack0 fsTemp).2.2
      (merge true mergePath [ascii "aT", ascii "a"] stack0 fsTemp).2.1).2.fs.openR
        (ascii "aT")).map File.data = none := by
  decide

/-- C17: with one tracked file, the second record of `docOverrun` carries the
index 2 and the total 1 and passes both checks of its Start marker; its body
differs from the file, so split replaces the file and then stores the new time
at index 1 of a table that has the single entry 0. -/
theorem split_stores_past_table_end :
    (datafromfile fsOverrun mergePath).1 = some docOverrun ∧
    docHeaders .searching (fgetsLines MAXTEXTLINE [] docOverrun) = [(1, 1), (2, 1)] ∧
    (split stack0 mergePath tempPath 1 [⟨5, 0⟩] fsOverrun).1 = .undefinedBehaviour ∧
    (split stack0 mergePath tempPath 1 [⟨5, 0⟩] fsOverrun).2.replaced = [(ascii "a", 1)] ∧
    (split stack0 mergePath tempPath 1 [⟨5, 0⟩] fsOverrun).2.times.length = 1 := by
  decide

end Vip
